import Mathlib

/-!
Verification of the cell-union core of the s2geometry repository.

The repository files under verification are `src/s2cellunion.h` (the
`S2CellUnion` class) and `src/util/math/vector2.h` (the `Vector2` template).
The cell-id collaborator (`s2cellid.h`) and the bodies of the `S2CellUnion`
methods are not part of the source tree, so they are modelled from the
specification (each such definition carries a doc comment saying so).

A cell id is modelled by its level (depth in the quad tree, 0 = face,
30 = leaf) and its position among the cells of that level, listed in
Hilbert order.  A cell of level `l` covers a contiguous aligned block of
`4 ^ (30 - l)` leaves; the 64-bit encoding of a cell is recovered as
`2 * range_min + size`, which places every cell at the midpoint of its
leaf range and reproduces the collaborator's total order.
-/

namespace S2

/-- Modelled from the spec: a cell id of the external cell-id collaborator,
given by its level in the quad tree and its Hilbert-order position within
that level. -/
structure CellId where
  level : Nat
  pos : Nat
deriving DecidableEq, Repr

namespace CellId

/-- The number of leaf cells covered by a cell: `4 ^ (30 - level)`. -/
def size (c : CellId) : Nat := 4 ^ (30 - c.level)

/-- Modelled from the spec: `range_min`, the first leaf index covered. -/
def rmin (c : CellId) : Nat := c.pos * c.size

/-- Modelled from the spec: `range_max`, the last leaf index covered. -/
def rmax (c : CellId) : Nat := c.rmin + (c.size - 1)

/-- The 64-bit Hilbert-order encoding of a cell: twice the first covered
leaf index plus the leaf count.  This is the key by which cell ids are
totally ordered. -/
def toId (c : CellId) : Nat := 2 * c.rmin + c.size

/-- Modelled from the spec: a valid cell has level at most 30 and a
position among the `6 * 4 ^ level` cells of its level. -/
def isValid (c : CellId) : Prop := c.level ≤ 30 ∧ c.pos < 6 * 4 ^ c.level

instance (c : CellId) : Decidable c.isValid :=
  inferInstanceAs (Decidable (_ ∧ _))

/-- Modelled from the spec: cell `a` contains cell `b` iff the leaf range
of `b` lies inside the leaf range of `a`. -/
def contains (a b : CellId) : Prop := a.rmin ≤ b.rmin ∧ b.rmax ≤ a.rmax

instance (a b : CellId) : Decidable (a.contains b) :=
  inferInstanceAs (Decidable (_ ∧ _))

/-- Modelled from the spec: the parent of a cell (meaningful for level ≥ 1). -/
def parent (c : CellId) : CellId := ⟨c.level - 1, c.pos / 4⟩

/-- Modelled from the spec: child number `k` (0 ≤ k ≤ 3) of a cell. -/
def child (c : CellId) (k : Nat) : CellId := ⟨c.level + 1, 4 * c.pos + k⟩

/-- Modelled from the spec: four cells are "the four children of a common
parent" iff they are pairwise distinct, none is a face cell, and all four
have the same parent. -/
def sib4 (a b c d : CellId) : Prop :=
  1 ≤ a.level ∧ 1 ≤ b.level ∧ 1 ≤ c.level ∧ 1 ≤ d.level ∧
  a.parent = d.parent ∧ b.parent = d.parent ∧ c.parent = d.parent ∧
  a ≠ b ∧ a ≠ c ∧ a ≠ d ∧ b ≠ c ∧ b ≠ d ∧ c ≠ d

instance (a b c d : CellId) : Decidable (sib4 a b c d) :=
  inferInstanceAs (Decidable (_ ∧ _))

end CellId

/-- Strict interval order on cells: `a`'s leaf range ends before `b`'s begins. -/
def below (a b : CellId) : Prop := a.rmax < b.rmin

instance : DecidableRel below := fun a b => inferInstanceAs (Decidable (_ < _))

instance : IsTrans CellId below :=
  ⟨fun a b c h1 h2 => by
    unfold below CellId.rmax at *
    omega⟩

/-- Strict id order on cells. -/
def idLT (a b : CellId) : Prop := a.toId < b.toId

instance : DecidableRel idLT := fun a b => inferInstanceAs (Decidable (_ < _))

instance : IsTrans CellId idLT := ⟨fun _ _ _ => Nat.lt_trans⟩

/-- Total order used for sorting: comparison of the 64-bit cell ids. -/
def cellLE (a b : CellId) : Prop := a.toId ≤ b.toId

instance : DecidableRel cellLE := fun a b => inferInstanceAs (Decidable (_ ≤ _))

instance : IsTotal CellId cellLE := ⟨fun a b => Nat.le_total _ _⟩

instance : IsTrans CellId cellLE := ⟨fun _ _ _ => Nat.le_trans⟩

/-- Modelled from the spec (§4.1 step 1): sort the cell ids ascending. -/
def sortCells (l : List CellId) : List CellId := l.insertionSort cellLE

/-- All cells of a list are valid (invariant (1) of raw unions). -/
def validList (l : List CellId) : Prop := ∀ c ∈ l, c.isValid

instance (l : List CellId) : Decidable (validList l) :=
  inferInstanceAs (Decidable (∀ c ∈ l, c.isValid))

/-- No four consecutive elements of the list are the four children of a
common parent (invariant (4) of normal form). -/
def noFourSib : List CellId → Prop
  | a :: b :: c :: d :: t => ¬ CellId.sib4 a b c d ∧ noFourSib (b :: c :: d :: t)
  | _ => True

instance noFourSibDecidable : (l : List CellId) → Decidable (noFourSib l)
  | [] => isTrue trivial
  | [_] => isTrue trivial
  | [_, _] => isTrue trivial
  | [_, _, _] => isTrue trivial
  | _ :: b :: c :: d :: t =>
    haveI := noFourSibDecidable (b :: c :: d :: t)
    inferInstanceAs (Decidable (_ ∧ _))

/-- Modelled from the spec (§4.1 step 2, second loop): pop stack elements
contained in the incoming cell. -/
def popContained (c : CellId) : List CellId → List CellId
  | [] => []
  | r :: rs => if c.contains r then popContained c rs else r :: rs

/-- Modelled from the spec (§4.1 step 2, third loop): collapse complete
sibling groups, cascading upward, then push the incoming cell. -/
def pushCascade : List CellId → CellId → List CellId
  | r1 :: r2 :: r3 :: rs, c =>
    if CellId.sib4 r3 r2 r1 c then pushCascade rs c.parent
    else c :: r1 :: r2 :: r3 :: rs
  | rs, c => c :: rs

/-- Modelled from the spec (§4.1 step 2): process one incoming cell against
the output stack (head of the list is the top of the stack). -/
def addCell (R : List CellId) (c : CellId) : List CellId :=
  match R with
  | [] => pushCascade [] c
  | r :: _ => if r.contains c then R else pushCascade (popContained c R) c

/-- Modelled from the spec (§4.1): normalization of a list of cell ids;
the stack is accumulated in reverse order. -/
def normalizeList (S : List CellId) : List CellId :=
  ((sortCells S).foldl addCell []).reverse

instance pairwiseNoContainDec :
    (l : List CellId) →
      Decidable (l.Pairwise fun a b => ¬ a.contains b ∧ ¬ b.contains a)
  | [] => isTrue List.Pairwise.nil
  | a :: t =>
    haveI := pairwiseNoContainDec t
    if h : (∀ b ∈ t, ¬ a.contains b ∧ ¬ b.contains a) ∧
        (t.Pairwise fun a b => ¬ a.contains b ∧ ¬ b.contains a) then
      isTrue (List.pairwise_cons.mpr h)
    else
      isFalse (fun hp => h (List.pairwise_cons.mp hp))

instance chainIdLTDec : (l : List CellId) → Decidable (l.Chain' idLT)
  | [] => isTrue List.chain'_nil
  | [_] => isTrue (List.chain'_singleton _)
  | a :: b :: t =>
    haveI := chainIdLTDec (b :: t)
    if h : idLT a b ∧ (b :: t).Chain' idLT then
      isTrue (List.chain'_cons.mpr h)
    else
      isFalse (fun hc => h (List.chain'_cons.mp hc))

/-- Normal form (§3): strictly sorted by id, no cell contains another, and
no four consecutive cells are the children of a common parent. -/
def isNormalized (l : List CellId) : Prop :=
  l.Chain' idLT ∧ l.Pairwise (fun a b => ¬ a.contains b ∧ ¬ b.contains a) ∧
  noFourSib l

instance (l : List CellId) : Decidable (isNormalized l) :=
  inferInstanceAs (Decidable (_ ∧ _))

/-- Modelled from the spec (§4.2): the greatest element whose id is at most
`v` in a sorted union (linear model of the binary search). -/
def predOf (u : List CellId) (v : Nat) : Option CellId :=
  u.foldl (fun acc r => if r.toId ≤ v then some r else acc) none

/-- Modelled from the spec (§4.2): the first element whose id is at least `v`. -/
def succOf (u : List CellId) (v : Nat) : Option CellId :=
  u.foldr (fun r acc => if v ≤ r.toId then some r else acc) none

/-- Modelled from the spec (§4.2): the element just before the position
found by `succOf`, i.e. the greatest element with id strictly below `v`. -/
def prevOf (u : List CellId) (v : Nat) : Option CellId :=
  u.foldl (fun acc r => if r.toId < v then some r else acc) none

/-- Modelled from the spec (§4.2 Contains(id)): the greatest element at most
`id` must cover `id`; `range_max(p) ≥ id` compares the leaf id
`2 * rmax + 1` against the queried cell id. -/
def containsIdU (u : List CellId) (c : CellId) : Bool :=
  match predOf u c.toId with
  | none => false
  | some p => decide (c.toId ≤ 2 * p.rmax + 1)

/-- Modelled from the spec (§4.2 Intersects(id)): the first element at or
after `range_min(id)` must start at or before `range_max(id)`, or the
element before that position must reach `range_min(id)`. -/
def intersectsIdU (u : List CellId) (c : CellId) : Bool :=
  (match succOf u (2 * c.rmin + 1) with
   | none => false
   | some p => decide (p.toId ≤ 2 * c.rmax + 1)) ||
  (match prevOf u (2 * c.rmin + 1) with
   | none => false
   | some q => decide (2 * c.rmin + 1 ≤ 2 * q.rmax + 1))

/-- Modelled from the spec (§6.2): `init` populates the union and
normalizes. -/
def Init (ids : List CellId) : List CellId := normalizeList ids

/-- Modelled from the spec (§4.1): `Normalize` replaces the contents by the
normal form and returns whether the number of cells was reduced. -/
def NormalizeOp (S : List CellId) : Bool × List CellId :=
  (decide ((normalizeList S).length < S.length), normalizeList S)

/-- Modelled from the spec (§4.3 Union): concatenate and normalize. -/
def GetUnion (x y : List CellId) : List CellId := normalizeList (x ++ y)

/-- Modelled from the spec (§4.3 Intersection): two-pointer merge over the
two sorted sequences; the fuel argument bounds the number of steps by the
total length.  The final branch is the unreachable invariant violation. -/
def interAux : Nat → List CellId → List CellId → List CellId
  | 0, _, _ => []
  | _ + 1, [], _ => []
  | _ + 1, _ :: _, [] => []
  | fuel + 1, a :: x, b :: y =>
    if a.rmax < b.rmin then interAux fuel x (b :: y)
    else if b.rmax < a.rmin then interAux fuel (a :: x) y
    else if a.contains b then b :: interAux fuel (a :: x) y
    else if b.contains a then a :: interAux fuel x (b :: y)
    else []

/-- Modelled from the spec (§4.3): intersection of two unions, finished
with normalization. -/
def GetIntersection (x y : List CellId) : List CellId :=
  normalizeList (interAux (x.length + y.length) x y)

/-- Modelled from the spec (§4.3): intersection of a union with one cell. -/
def GetIntersectionCell (x : List CellId) (c : CellId) : List CellId :=
  normalizeList (interAux (x.length + 1) x [c])

/-- Modelled from the spec (§4.3 Difference): if `y` does not intersect the
cell, emit it; if `y` contains it, emit nothing; otherwise recurse on the
four children.  The fuel bounds the recursion depth by the tree height. -/
def diffAux (y : List CellId) : Nat → CellId → List CellId
  | 0, _ => []
  | fuel + 1, c =>
    if intersectsIdU y c then
      if containsIdU y c then []
      else
        diffAux y fuel (c.child 0) ++ diffAux y fuel (c.child 1) ++
        diffAux y fuel (c.child 2) ++ diffAux y fuel (c.child 3)
    else [c]

/-- Modelled from the spec (§4.3): difference of two unions, finished with
normalization. -/
def GetDifference (x y : List CellId) : List CellId :=
  normalizeList (x.foldr (fun c acc => diffAux y 31 c ++ acc) [])

/-- Modelled from the spec (§4.5): the ancestor of `c` at level `L ≤ level`. -/
def parentAt (c : CellId) (L : Nat) : CellId := ⟨L, c.pos / 4 ^ (c.level - L)⟩

/-- Modelled from the spec (§4.5 Expand(level)): cells finer than the
expansion level contribute their ancestor at that level and its neighbors;
coarser cells contribute themselves and their neighbors.  The neighbor
enumeration `nbrs` is supplied by the cell-id collaborator. -/
def expandCell (nbrs : CellId → Nat → List CellId) (L : Nat) (c : CellId) :
    List CellId :=
  if L ≤ c.level then parentAt c L :: nbrs (parentAt c L) L
  else c :: nbrs c L

/-- Modelled from the spec (§4.5 Expand(level)): collect and normalize. -/
def Expand (nbrs : CellId → Nat → List CellId) (L : Nat) (u : List CellId) :
    List CellId :=
  normalizeList (u.foldr (fun c acc => expandCell nbrs L c ++ acc) [])

/-- Modelled from the spec (§4.5): the level of the coarsest cell of the
union (starting from the maximum level 30). -/
def minLevel (u : List CellId) : Nat := u.foldr (fun c m => min c.level m) 30

/-- Modelled from the spec (§4.5 Expand(min_radius, max_level_diff)): the
chosen expansion level `min(L_θ, m + D)` clamped to `[0, 30]`, where `L_θ`
is the collaborator-provided `ClosestLevel(θ)`. -/
def expandLevelFor (Ltheta D : Nat) (u : List CellId) : Nat :=
  min (min Ltheta (minLevel u + D)) 30

/-- Modelled from the spec (§4.5 Expand(min_radius, max_level_diff)). -/
def ExpandRadius (nbrs : CellId → Nat → List CellId) (Ltheta D : Nat)
    (u : List CellId) : List CellId :=
  Expand nbrs (expandLevelFor Ltheta D u) u

/-- Modelled from the spec (§4.6): grow a cell upward to the largest
ancestor that starts at the same leaf and whose range stays within `hi`. -/
def growAux (hi : Nat) : Nat → CellId → CellId
  | 0, c => c
  | fuel + 1, c =>
    if c.level = 0 then c
    else if c.parent.rmin = c.rmin ∧ c.parent.rmax ≤ hi then
      growAux hi fuel c.parent
    else c

/-- Modelled from the spec (§4.6): greedy cover of the leaf range
`[lo, hi]`; each step emits the grown block and advances to the leaf after
it.  The fuel `hi + 1 - lo` suffices since each block covers a leaf. -/
def rangeAux (hi : Nat) : Nat → Nat → List CellId
  | 0, _ => []
  | fuel + 1, lo =>
    if lo ≤ hi then
      (growAux hi 30 ⟨30, lo⟩) ::
        rangeAux hi fuel ((growAux hi 30 ⟨30, lo⟩).rmax + 1)
    else []

/-- Modelled from the spec (§4.6 InitFromRange / InitFromMinMax). -/
def InitFromRange (a b : CellId) : List CellId :=
  rangeAux b.pos (b.pos + 1 - a.pos) a.pos

/-- Modelled from the spec (§4.6 InitFromBeginEnd): empty for an empty
range, otherwise the closed range up to the predecessor leaf of `e`. -/
def InitFromBeginEnd (a e : CellId) : List CellId :=
  if a = e then [] else InitFromRange a ⟨e.level, e.pos - 1⟩

/-- Modelled from the spec (§4.7): number of leaf cells covered, the sum of
`4 ^ (30 - level)` over the cells. -/
def LeafCellsCovered (u : List CellId) : Nat :=
  u.foldr (fun c n => 4 ^ (30 - c.level) + n) 0

/-- Modelled from the spec (§4.7): leaf count times the average leaf area
(the constant `4π / (6 · 4^30)` is supplied by the cell collaborator). -/
def AverageBasedArea (avgLeafArea : ℚ) (u : List CellId) : ℚ :=
  avgLeafArea * LeafCellsCovered u

/-- Modelled from the spec (§4.7): sum of the collaborator-supplied
per-cell approximate areas. -/
def ApproxArea (cellArea : CellId → ℚ) (u : List CellId) : ℚ :=
  (u.map cellArea).sum

/-- Modelled from the spec (§4.7): sum of the collaborator-supplied
per-cell exact areas. -/
def ExactArea (cellArea : CellId → ℚ) (u : List CellId) : ℚ :=
  (u.map cellArea).sum

/-- Modelled from the spec (§4.4): the smallest level `L ≥ max(level,
min_level)` with `(L - min_level) % level_mod = 0`, capped at 30. -/
def denormLevel (minL mod lv : Nat) : Nat :=
  min (max lv minL + (mod - (max lv minL - minL) % mod) % mod) 30

/-- Modelled from the spec (§4.4): the level-`(level + n)` descendants of a
cell, emitted in Hilbert order. -/
def descListAux : Nat → CellId → List CellId
  | 0, c => [c]
  | n + 1, c =>
    descListAux n (c.child 0) ++ descListAux n (c.child 1) ++
    descListAux n (c.child 2) ++ descListAux n (c.child 3)

/-- Modelled from the spec (§4.4 Denormalize): replace each cell by its
descendants at the required level; the output is appended, not
renormalized. -/
def Denormalize (minL mod : Nat) (u : List CellId) : List CellId :=
  u.foldr
    (fun c acc => descListAux (denormLevel minL mod c.level - c.level) c ++ acc)
    []

/-- The default constructor leaves the union empty (source lines 44-46). -/
def emptyUnion : List CellId := []

/-- The abort signal raised by the unimplemented `Encode`. -/
inductive EncodeSignal
  | fatalUnimplemented
deriving DecidableEq

/-- `Encode` as written in the source (lines 217-219): it logs FATAL
("Unimplemented") and never returns normally. -/
def Encode (_ : List CellId) : Except EncodeSignal Unit :=
  Except.error EncodeSignal.fatalUnimplemented

/-- `Decode` as written in the source (line 220): returns false and leaves
the union unchanged. -/
def Decode (u : List CellId) : Bool × List CellId := (false, u)

/-- Modelled from the spec (§4.7 Contains(Point)): the collaborator maps
the point to the leaf cell containing it, then `Contains(id)` is called;
the point is represented here by that leaf cell. -/
def ContainsPoint (u : List CellId) (leafOfP : CellId) : Bool :=
  containsIdU u leafOfP

/-- `VirtualContainsPoint` as written in the source (lines 213-215): a pure
delegation to `Contains(Point)`. -/
def VirtualContainsPoint (u : List CellId) (leafOfP : CellId) : Bool :=
  ContainsPoint u leafOfP

end S2

/-- The 2D vector template of `util/math/vector2.h`, with components of an
arbitrary scalar type. -/
structure Vector2 (α : Type) where
  x : α
  y : α
deriving DecidableEq, Repr

namespace Vector2

/-- Scalar multiplication `Self(*this) *= k`: each component is multiplied
by `k` on the right (source lines 265-270 and 309-312). -/
def mulScalar {α : Type} [Mul α] (v : Vector2 α) (k : α) : Vector2 α :=
  ⟨v.x * k, v.y * k⟩

/-- `DotProd` (source lines 304-307). -/
def DotProd {α : Type} [Mul α] [Add α] (v vb : Vector2 α) : α :=
  v.x * vb.x + v.y * vb.y

/-- `Norm2`, the squared Euclidean norm (source lines 368-371). -/
def Norm2 {α : Type} [Mul α] [Add α] (v : Vector2 α) : α :=
  v.x * v.x + v.y * v.y

/-- `CrossProd` (source lines 319-322). -/
def CrossProd {α : Type} [Mul α] [Sub α] (v vb : Vector2 α) : α :=
  v.x * vb.y - v.y * vb.x

/-- `Ortho` (source lines 431-434): the counterclockwise orthogonal vector
`(-y, x)`. -/
def Ortho {α : Type} [Neg α] (v : Vector2 α) : Vector2 α := ⟨-v.y, v.x⟩

/-- `Norm` over the real-number idealization of the floating-point scalar
(source lines 373-376). -/
noncomputable def Norm (v : Vector2 ℝ) : ℝ := Real.sqrt (Norm2 v)

/-- `Normalize` (source lines 383-391): compute `n = Norm()`; replace `n`
by `1/n` only when `n ≠ 0`; return the vector scaled by `n`. -/
noncomputable def Normalize (v : Vector2 ℝ) : Vector2 ℝ :=
  mulScalar v (if Norm v ≠ 0 then 1 / Norm v else Norm v)

end Vector2

namespace S2

namespace CellId

theorem size_pos (c : CellId) : 0 < c.size := Nat.pos_pow_of_pos _ (by norm_num)

theorem rmax_succ (c : CellId) : c.rmax + 1 = c.rmin + c.size := by
  have := c.size_pos
  unfold rmax
  omega

theorem rmin_le_rmax (c : CellId) : c.rmin ≤ c.rmax := by
  unfold rmax
  omega

theorem toId_eq (c : CellId) : c.toId = c.rmin + c.rmax + 1 := by
  have := c.rmax_succ
  unfold toId
  omega

theorem toId_lt_of_below {a b : CellId} (h : a.rmax < b.rmin) :
    a.toId < b.toId := by
  have ha := a.toId_eq
  have hb := b.toId_eq
  have h1 := a.rmin_le_rmax
  have h2 := b.rmin_le_rmax
  omega

/-- Arithmetic core of the nested-or-disjoint property: an aligned block of
size `s` that overlaps an aligned block of size `t` with `s ∣ t` is
contained in it. -/
theorem block_nest (s t pa pb : Nat) (_hs : 0 < s) (ht : 0 < t) (hdvd : s ∣ t)
    (h1 : pa * s < pb * t + t) (h2 : pb * t < pa * s + s) :
    pb * t ≤ pa * s ∧ pa * s + s ≤ pb * t + t := by
  obtain ⟨m, hm⟩ := hdvd
  have hm' : t = m * s := by rw [hm]; ring
  rw [hm'] at h1 h2 ht ⊢
  have hmpos : 0 < m := by
    by_contra h
    push_neg at h
    interval_cases m
    simp at ht
  have hpa : m * (pa / m) + pa % m = pa := Nat.div_add_mod pa m
  have hr : pa % m < m := Nat.mod_lt _ hmpos
  have e : pa * s = (pa / m) * (m * s) + (pa % m) * s := by
    calc pa * s = (m * (pa / m) + pa % m) * s := by rw [hpa]
    _ = (pa / m) * (m * s) + (pa % m) * s := by ring
  have hrs : (pa % m) * s + s ≤ m * s := by
    calc (pa % m) * s + s = (pa % m + 1) * s := by ring
    _ ≤ m * s := Nat.mul_le_mul_right s hr
  have key1 : pa / m ≤ pb := by
    have hlt : (pa / m) * (m * s) < (pb + 1) * (m * s) := by
      have h0 : (pa / m) * (m * s) ≤ pa * s := by omega
      calc (pa / m) * (m * s) ≤ pa * s := h0
      _ < pb * (m * s) + m * s := h1
      _ = (pb + 1) * (m * s) := by ring
    have := Nat.lt_of_mul_lt_mul_right hlt
    omega
  have key2 : pb ≤ pa / m := by
    have hlt : pb * (m * s) < (pa / m + 1) * (m * s) := by
      calc pb * (m * s) < pa * s + s := h2
      _ = (pa / m) * (m * s) + ((pa % m) * s + s) := by omega
      _ ≤ (pa / m) * (m * s) + m * s := by omega
      _ = (pa / m + 1) * (m * s) := by ring
    have := Nat.lt_of_mul_lt_mul_right hlt
    omega
  have hq : pa / m = pb := le_antisymm key1 key2
  rw [← hq]
  omega

theorem size_dvd_of_le {a b : CellId} (h : a.size ≤ b.size) : a.size ∣ b.size := by
  have h4 : (1 : Nat) < 4 := by norm_num
  have hexp : 30 - a.level ≤ 30 - b.level := (Nat.pow_le_pow_iff_right h4).mp h
  exact pow_dvd_pow 4 hexp

theorem rmin_def (c : CellId) : c.rmin = c.pos * c.size := rfl

theorem contains_of_overlap_of_size_le {a b : CellId} (hs : a.size ≤ b.size)
    (h1 : a.rmin ≤ b.rmax) (h2 : b.rmin ≤ a.rmax) : b.contains a := by
  have hdvd := size_dvd_of_le hs
  have hbpos := b.size_pos
  have hapos := a.size_pos
  have hra := a.rmax_succ
  have hrb := b.rmax_succ
  have da := rmin_def a
  have db := rmin_def b
  have e1 : a.pos * a.size < b.pos * b.size + b.size := by omega
  have e2 : b.pos * b.size < a.pos * a.size + a.size := by omega
  have hn := block_nest a.size b.size a.pos b.pos hapos hbpos hdvd e1 e2
  exact ⟨by omega, by omega⟩

/-- Nested-or-disjoint: two (possibly invalid) model cells whose leaf
ranges overlap are nested one way or the other. -/
theorem nested_or_disjoint (a b : CellId) (h1 : a.rmin ≤ b.rmax)
    (h2 : b.rmin ≤ a.rmax) : a.contains b ∨ b.contains a := by
  rcases le_total a.size b.size with h | h
  · exact Or.inr (contains_of_overlap_of_size_le h h1 h2)
  · exact Or.inl (contains_of_overlap_of_size_le h h2 h1)

/-- Two cells that are not nested either way have disjoint leaf ranges. -/
theorem disjoint_of_not_nested {a b : CellId} (hab : ¬ a.contains b)
    (hba : ¬ b.contains a) : a.rmax < b.rmin ∨ b.rmax < a.rmin := by
  by_contra h
  push_neg at h
  rcases nested_or_disjoint a b (by omega) (by omega) with hc | hc
  · exact hab hc
  · exact hba hc

theorem parent_eq_iff {a d : CellId} :
    a.parent = d.parent ↔ a.level - 1 = d.level - 1 ∧ a.pos / 4 = d.pos / 4 := by
  unfold parent
  constructor
  · intro h
    exact ⟨congrArg CellId.level h, congrArg CellId.pos h⟩
  · rintro ⟨h1, h2⟩
    simp [h1, h2]

theorem size_eq_of_level_eq {a b : CellId} (h : a.level = b.level) :
    a.size = b.size := by
  unfold size
  rw [h]

theorem pos_lt_of_below {a b : CellId} (hl : a.level = b.level)
    (h : a.rmax < b.rmin) : a.pos < b.pos := by
  have hs := size_eq_of_level_eq hl
  have h1 := a.rmax_succ
  have h2 := rmin_def a
  have h3 := rmin_def b
  rw [← hs] at h3
  have hpos := a.size_pos
  have hmul : (a.pos + 1) * a.size ≤ b.pos * a.size := by
    have : (a.pos + 1) * a.size = a.pos * a.size + a.size := by ring
    omega
  have := Nat.le_of_mul_le_mul_right hmul hpos
  omega

theorem below_of_pos_lt {a b : CellId} (hl : a.level = b.level)
    (h : a.pos < b.pos) : a.rmax < b.rmin := by
  have hs := size_eq_of_level_eq hl
  have h1 := a.rmax_succ
  have h2 := rmin_def a
  have h3 := rmin_def b
  rw [← hs] at h3
  have hpos := a.size_pos
  have hmul : (a.pos + 1) * a.size ≤ b.pos * a.size :=
    Nat.mul_le_mul_right _ h
  have : (a.pos + 1) * a.size = a.pos * a.size + a.size := by ring
  omega

theorem pos_div_window {p q : Nat} (h : p / 4 = q) : 4 * q ≤ p ∧ p < 4 * q + 4 := by
  omega

theorem sib4_rev {a b c d : CellId} (h : sib4 a b c d) : sib4 d c b a := by
  obtain ⟨l1, l2, l3, l4, p1, p2, p3, n1, n2, n3, n4, n5, n6⟩ := h
  exact ⟨l4, l3, l2, l1, p1.symm, p3.trans p1.symm, p2.trans p1.symm,
    n6.symm, n5.symm, n3.symm, n4.symm, n2.symm, n1.symm⟩

/-- Structural consequences of an interval-ordered sibling quadruple:
levels agree, positions are the four slots of a common parent `p`, the
parent starts where the first child starts and ends where the fourth
child ends. -/
theorem sib4_sorted_struct {a b c d : CellId} (h : sib4 a b c d)
    (hab : a.rmax < b.rmin) (hbc : b.rmax < c.rmin) (hcd : c.rmax < d.rmin)
    (hd30 : d.level ≤ 30) :
    d.parent.rmin = a.rmin ∧ d.parent.rmax = d.rmax ∧ a.rmin ≤ d.rmin := by
  obtain ⟨l1, l2, l3, l4, p1, p2, p3, n1, n2, n3, n4, n5, n6⟩ := h
  have e1 := parent_eq_iff.mp p1
  have e2 := parent_eq_iff.mp p2
  have e3 := parent_eq_iff.mp p3
  have hla : a.level = d.level := by omega
  have hlb : b.level = d.level := by omega
  have hlc : c.level = d.level := by omega
  have q1 := pos_div_window e1.2
  have q2 := pos_div_window e2.2
  have q3 := pos_div_window e3.2
  have o1 := pos_lt_of_below (hla.trans hlb.symm) hab
  have o2 := pos_lt_of_below (hlb.trans hlc.symm) hbc
  have o3 := pos_lt_of_below hlc hcd
  set q := d.pos / 4 with hq
  have ha : a.pos = 4 * q := by omega
  have hd : d.pos = 4 * q + 3 := by omega
  have hsz : d.parent.size = 4 * d.size := by
    show (4 : Nat) ^ (30 - (d.level - 1)) = 4 * 4 ^ (30 - d.level)
    have : 30 - (d.level - 1) = (30 - d.level) + 1 := by omega
    rw [this]
    ring
  have hsa : a.size = d.size := size_eq_of_level_eq hla
  have hpr : d.parent.rmin = q * (4 * d.size) := by
    rw [rmin_def, hsz]
    rfl
  have hprm : d.parent.rmax = q * (4 * d.size) + (4 * d.size - 1) := by
    rw [rmax, hpr, hsz]
  have hdpos := d.size_pos
  refine ⟨?_, ?_, ?_⟩
  · rw [hpr, rmin_def, ha, hsa]
    ring
  · rw [hprm, rmax, rmin_def, hd]
    have : (4 * q + 3) * d.size = q * (4 * d.size) + 3 * d.size := by ring
    omega
  · rw [rmin_def, rmin_def, ha, hd, hsa]
    have h1 : (4 * q) * d.size ≤ (4 * q + 3) * d.size :=
      Nat.mul_le_mul_right _ (by omega)
    omega

theorem child_parent (c : CellId) (k : Nat) (hk : k < 4) :
    (c.child k).parent = c := by
  unfold child parent
  have h1 : c.level + 1 - 1 = c.level := by omega
  have h2 : (4 * c.pos + k) / 4 = c.pos := by omega
  simp [h1, h2]

theorem child_level (c : CellId) (k : Nat) : (c.child k).level = c.level + 1 := rfl

theorem size_eq_four_mul_child {c : CellId} (h : c.level ≤ 29) (k : Nat) :
    c.size = 4 * (c.child k).size := by
  show (4 : Nat) ^ (30 - c.level) = 4 * 4 ^ (30 - (c.level + 1))
  have : 30 - c.level = (30 - (c.level + 1)) + 1 := by omega
  rw [this]
  ring

theorem child_rmin {c : CellId} (h : c.level ≤ 29) (k : Nat) :
    (c.child k).rmin = c.rmin + k * (c.child k).size := by
  have hs := size_eq_four_mul_child h k
  rw [rmin_def, rmin_def]
  show (4 * c.pos + k) * (c.child k).size = c.pos * c.size + k * (c.child k).size
  rw [hs]
  ring

theorem child_rmax {c : CellId} (h : c.level ≤ 29) (k : Nat) :
    (c.child k).rmax = c.rmin + (k + 1) * (c.child k).size - 1 := by
  have h1 := child_rmin h k
  have h2 := (c.child k).rmax_succ
  have h3 := (c.child k).size_pos
  have : (k + 1) * (c.child k).size = k * (c.child k).size + (c.child k).size := by
    ring
  omega

theorem child_contains {c : CellId} (h : c.level ≤ 29) {k : Nat} (hk : k < 4) :
    c.contains (c.child k) := by
  have h1 := child_rmin h k
  have h2 := child_rmax h k
  have hs := size_eq_four_mul_child h k
  have h3 := (c.child k).size_pos
  have h4 := c.rmax_succ
  constructor
  · omega
  · have : (k + 1) * (c.child k).size ≤ 4 * (c.child k).size :=
      Nat.mul_le_mul_right _ (by omega)
    omega

theorem child_tile {c : CellId} (h : c.level ≤ 29) (k : Nat) :
    (c.child k).rmax + 1 = (c.child (k + 1)).rmin := by
  have h1 := child_rmin h k
  have h2 := child_rmin h (k + 1)
  have h3 := child_rmax h k
  have h4 := (c.child k).size_pos
  have hs : (c.child k).size = (c.child (k + 1)).size := rfl
  rw [← hs] at h2
  have he : (k + 1) * (c.child k).size = k * (c.child k).size + (c.child k).size := by
    ring
  omega

theorem child_zero_rmin {c : CellId} (h : c.level ≤ 29) :
    (c.child 0).rmin = c.rmin := by
  have := child_rmin h 0
  omega

theorem child_three_rmax {c : CellId} (h : c.level ≤ 29) :
    (c.child 3).rmax = c.rmax := by
  have h1 := child_rmax h 3
  have hs := size_eq_four_mul_child h 3
  have h2 := c.rmax_succ
  have h3 := (c.child 3).size_pos
  omega

theorem parent_child_three {c : CellId} : (c.child 3).parent = c := by
  exact child_parent c 3 (by omega)

end CellId

theorem below_idLT {a b : CellId} (h : below a b) : idLT a b :=
  CellId.toId_lt_of_below h

theorem below_not_contains {a b : CellId} (h : below a b) :
    ¬ a.contains b ∧ ¬ b.contains a := by
  have h1 := a.rmin_le_rmax
  have h2 := b.rmin_le_rmax
  unfold below at h
  constructor
  · rintro ⟨c1, c2⟩
    omega
  · rintro ⟨c1, c2⟩
    omega

theorem noFourSib_tail {x : CellId} {l : List CellId} (h : noFourSib (x :: l)) :
    noFourSib l := by
  match l with
  | [] => trivial
  | [_] => trivial
  | [_, _] => trivial
  | a :: b :: c :: t => exact h.2

theorem noFourSib_iff_quad (l : List CellId) :
    noFourSib l ↔ ∀ a b c d, [a, b, c, d] <:+: l → ¬ CellId.sib4 a b c d := by
  induction l with
  | nil =>
    constructor
    · intro _ a b c d h hs
      have := h.length_le
      simp at this
    · intro _
      trivial
  | cons hd tl ih =>
    constructor
    · intro h a b c d hin
      obtain ⟨s, t, hst⟩ := hin
      cases s with
      | nil =>
        simp at hst
        obtain ⟨h1, h2⟩ := hst
        subst h1
        rw [← h2] at h
        exact fun hs => h.1 hs
      | cons x s' =>
        simp at hst
        have htl : [a, b, c, d] <:+: tl := ⟨s', t, by rw [← hst.2]; simp⟩
        exact (ih.mp (noFourSib_tail h)) a b c d htl
    · intro h
      match tl with
      | [] => trivial
      | [_] => trivial
      | [_, _] => trivial
      | a :: b :: c :: t =>
        refine ⟨h hd a b c ⟨[], t, by simp⟩, ih.mpr ?_⟩
        intro a' b' c' d' hin
        exact h a' b' c' d' (hin.trans ⟨[hd], [], by simp⟩)

theorem noFourSib_mono {l l' : List CellId} (h : noFourSib l)
    (hin : l' <:+: l) : noFourSib l' := by
  rw [noFourSib_iff_quad] at h ⊢
  intro a b c d h4
  exact h a b c d (h4.trans hin)

theorem noFourSib_reverse {l : List CellId} (h : noFourSib l) :
    noFourSib l.reverse := by
  rw [noFourSib_iff_quad] at h ⊢
  intro a b c d hin hs
  have hrev : [d, c, b, a] <:+: l := by
    have : ([d, c, b, a] : List CellId).reverse <:+: l.reverse := by
      simpa using hin
    exact List.reverse_infix.mp (by simpa using this)
  exact h d c b a hrev (CellId.sib4_rev hs)

theorem parent_isValid {c : CellId} (hc : c.isValid) (hl : 1 ≤ c.level) :
    c.parent.isValid := by
  obtain ⟨h30, hpos⟩ := hc
  constructor
  · show c.level - 1 ≤ 30
    omega
  · show c.pos / 4 < 6 * 4 ^ (c.level - 1)
    rw [Nat.div_lt_iff_lt_mul (by norm_num : (0:Nat) < 4)]
    have h4 : (4:Nat) ^ c.level = 4 ^ (c.level - 1) * 4 := by
      have he : c.level = (c.level - 1) + 1 := by omega
      conv_lhs => rw [he]
      rw [pow_succ]
    calc c.pos < 6 * 4 ^ c.level := hpos
    _ = 6 * 4 ^ (c.level - 1) * 4 := by rw [h4]; ring

theorem popContained_suffix (c : CellId) :
    ∀ (R : List CellId), popContained c R <:+ R := by
  intro R
  induction R with
  | nil => simp [popContained]
  | cons r rs ih =>
    unfold popContained
    by_cases h : c.contains r
    · rw [if_pos h]
      exact ih.trans ⟨[r], rfl⟩
    · rw [if_neg h]

theorem popContained_spec (c : CellId) :
    ∀ (R : List CellId), R.Chain' (flip below) →
    (∀ r, R.head? = some r → c.contains r ∨ r.rmax < c.rmin) →
    ∀ r, (popContained c R).head? = some r → r.rmax < c.rmin := by
  intro R
  induction R with
  | nil =>
    intro _ _ r hr
    simp [popContained] at hr
  | cons r rs ih =>
    intro hch hh
    unfold popContained
    by_cases hc : c.contains r
    · rw [if_pos hc]
      obtain ⟨hrel, htl⟩ := List.chain'_cons'.mp hch
      apply ih htl
      intro r' hr'
      have hb : r'.rmax < r.rmin := hrel r' hr'
      by_cases hbel : r'.rmax < c.rmin
      · exact Or.inr hbel
      · left
        have h1 : c.rmin ≤ r'.rmax := by omega
        have h2 : r'.rmin ≤ c.rmax := by
          have e1 := r'.rmin_le_rmax
          have e2 := r.rmin_le_rmax
          have e3 := hc.2
          omega
        rcases CellId.nested_or_disjoint c r' h1 h2 with h | h
        · exact h
        · exfalso
          have e2 := r.rmin_le_rmax
          have e3 := hc.2
          have e4 := h.2
          omega
    · rw [if_neg hc]
      intro r' hr'
      have hrr : r = r' := by simpa using hr'
      subst hrr
      rcases hh r rfl with h | h
      · exact absurd h hc
      · exact h

/-- Pushing an incoming cell on a stack whose top lies strictly below it,
when no sibling collapse applies, preserves all stack invariants. -/
theorem push_simple (R : List CellId) (c : CellId)
    (hch : R.Chain' (flip below)) (hns : noFourSib R) (hv : validList R)
    (hc : c.isValid) (hh : ∀ r, R.head? = some r → r.rmax < c.rmin)
    (hnos : ∀ r1 r2 r3 rs, R = r1 :: r2 :: r3 :: rs → ¬ CellId.sib4 r3 r2 r1 c) :
    (c :: R).Chain' (flip below) ∧ noFourSib (c :: R) ∧ validList (c :: R) ∧
    (∀ t, (c :: R).head? = some t → t.rmin ≤ c.rmin) ∧ (c :: R) ≠ [] := by
  refine ⟨?_, ?_, ?_, ?_, by simp⟩
  · rw [List.chain'_cons']
    exact ⟨fun b hb => hh b hb, hch⟩
  · match R with
    | [] => trivial
    | [_] => trivial
    | [_, _] => trivial
    | r1 :: r2 :: r3 :: rs =>
      exact ⟨fun hs => hnos r1 r2 r3 rs rfl (CellId.sib4_rev hs), hns⟩
  · intro x hx
    rcases List.mem_cons.mp hx with h | h
    · subst h
      exact hc
    · exact hv x h
  · intro t ht
    simp at ht
    subst ht
    exact le_refl _

/-- The sibling-collapse cascade preserves all stack invariants and the new
top of the stack starts no later than the incoming cell. -/
theorem pushCascade_spec :
    ∀ (R : List CellId) (c : CellId), R.Chain' (flip below) → noFourSib R →
    validList R → c.isValid → (∀ r, R.head? = some r → r.rmax < c.rmin) →
    (pushCascade R c).Chain' (flip below) ∧ noFourSib (pushCascade R c) ∧
    validList (pushCascade R c) ∧
    (∀ t, (pushCascade R c).head? = some t → t.rmin ≤ c.rmin) ∧
    pushCascade R c ≠ []
  | [], c, hch, hns, hv, hc, hh => by
    have heq : pushCascade [] c = c :: [] := rfl
    rw [heq]
    exact push_simple [] c hch hns hv hc hh (by intro r1 r2 r3 rs h; simp at h)
  | [r1], c, hch, hns, hv, hc, hh => by
    have heq : pushCascade [r1] c = c :: [r1] := rfl
    rw [heq]
    exact push_simple [r1] c hch hns hv hc hh (by intro a b d rs h; simp at h)
  | [r1, r2], c, hch, hns, hv, hc, hh => by
    have heq : pushCascade [r1, r2] c = c :: [r1, r2] := rfl
    rw [heq]
    exact push_simple [r1, r2] c hch hns hv hc hh (by intro a b d rs h; simp at h)
  | r1 :: r2 :: r3 :: rs, c, hch, hns, hv, hc, hh => by
    have hun : pushCascade (r1 :: r2 :: r3 :: rs) c =
        if CellId.sib4 r3 r2 r1 c then pushCascade rs c.parent
        else c :: r1 :: r2 :: r3 :: rs := rfl
    by_cases hs : CellId.sib4 r3 r2 r1 c
    · have heq : pushCascade (r1 :: r2 :: r3 :: rs) c = pushCascade rs c.parent := by
        rw [hun, if_pos hs]
      rw [heq]
      have hc1 : r1.rmax < c.rmin := hh r1 rfl
      obtain ⟨hrel1, hch2⟩ := List.chain'_cons'.mp hch
      obtain ⟨hrel2, hch3⟩ := List.chain'_cons'.mp hch2
      obtain ⟨hrel3, hch4⟩ := List.chain'_cons'.mp hch3
      have hc2 : r2.rmax < r1.rmin := hrel1 r2 rfl
      have hc3 : r3.rmax < r2.rmin := hrel2 r3 rfl
      have hstruct := CellId.sib4_sorted_struct hs hc3 hc2 hc1 hc.1
      have hlev : 1 ≤ c.level := by
        obtain ⟨_, _, _, l4, _⟩ := hs
        exact l4
      have hcp : c.parent.isValid := parent_isValid hc hlev
      have hh' : ∀ r, rs.head? = some r → r.rmax < c.parent.rmin := by
        intro r hr
        have := hrel3 r hr
        have hb : r.rmax < r3.rmin := this
        omega
      have hmain := pushCascade_spec rs c.parent hch4
        (noFourSib_tail (noFourSib_tail (noFourSib_tail hns)))
        (fun x hx => hv x (by simp [hx]))
        hcp hh'
      refine ⟨hmain.1, hmain.2.1, hmain.2.2.1, ?_, hmain.2.2.2.2⟩
      intro t ht
      have := hmain.2.2.2.1 t ht
      omega
    · have heq : pushCascade (r1 :: r2 :: r3 :: rs) c = c :: r1 :: r2 :: r3 :: rs := by
        rw [hun, if_neg hs]
      rw [heq]
      apply push_simple _ c hch hns hv hc hh
      intro a b d rs' h'
      simp at h'
      obtain ⟨e1, e2, e3, e4⟩ := h'
      subst e1
      subst e2
      subst e3
      exact hs

/-- Processing one cell whose id is at least the leaf id at the top of the
stack preserves all stack invariants. -/
theorem addCell_spec (R : List CellId) (c : CellId)
    (hch : R.Chain' (flip below)) (hns : noFourSib R) (hv : validList R)
    (hc : c.isValid)
    (hh : ∀ r, R.head? = some r → 2 * r.rmin + 1 ≤ c.toId) :
    (addCell R c).Chain' (flip below) ∧ noFourSib (addCell R c) ∧
    validList (addCell R c) ∧
    (∀ t, (addCell R c).head? = some t → t.rmin ≤ c.rmin) ∧ addCell R c ≠ [] := by
  match R with
  | [] =>
    have heq : addCell [] c = pushCascade [] c := rfl
    rw [heq]
    exact pushCascade_spec [] c hch hns hv hc (by intro r hr; simp at hr)
  | r :: rs =>
    have heq : addCell (r :: rs) c =
        if r.contains c then r :: rs else pushCascade (popContained c (r :: rs)) c := rfl
    rw [heq]
    by_cases hcon : r.contains c
    · rw [if_pos hcon]
      refine ⟨hch, hns, hv, ?_, by simp⟩
      intro t ht
      simp at ht
      subst ht
      exact hcon.1
    · rw [if_neg hcon]
      have hd : c.contains r ∨ r.rmax < c.rmin := by
        have hb := hh r rfl
        have htid := c.toId_eq
        by_cases hbel : r.rmax < c.rmin
        · exact Or.inr hbel
        · left
          have h1 : c.rmin ≤ r.rmax := by omega
          have h2 : r.rmin ≤ c.rmax := by
            have e1 := c.rmin_le_rmax
            have e2 := r.rmin_le_rmax
            omega
          rcases CellId.nested_or_disjoint c r h1 h2 with h | h
          · exact h
          · exact absurd h hcon
      have hpop := popContained_spec c (r :: rs) hch (by
        intro r' hr'
        simp at hr'
        subst hr'
        exact hd)
      have hsuf := popContained_suffix c (r :: rs)
      have hin : popContained c (r :: rs) <:+: r :: rs := hsuf.isInfix
      have hch1 : (popContained c (r :: rs)).Chain' (flip below) := hch.suffix hsuf
      have hns1 := noFourSib_mono hns hin
      have hv1 : validList (popContained c (r :: rs)) :=
        fun x hx => hv x (hsuf.subset hx)
      exact pushCascade_spec _ c hch1 hns1 hv1 hc hpop

/-- Folding a sorted list of valid cells through `addCell` preserves all
stack invariants. -/
theorem foldl_addCell_spec :
    ∀ (S R : List CellId), S.Pairwise cellLE → validList S →
    R.Chain' (flip below) → noFourSib R → validList R →
    (∀ d ∈ S, ∀ r, R.head? = some r → 2 * r.rmin + 1 ≤ d.toId) →
    (S.foldl addCell R).Chain' (flip below) ∧ noFourSib (S.foldl addCell R) ∧
    validList (S.foldl addCell R) := by
  intro S
  induction S with
  | nil =>
    intro R _ _ h1 h2 h3 _
    exact ⟨h1, h2, h3⟩
  | cons c S' ih =>
    intro R hp hvS hch hns hv hh
    simp only [List.foldl_cons]
    obtain ⟨s1, s2, s3, s4, s5⟩ := addCell_spec R c hch hns hv (hvS c (by simp))
      (fun r hr => hh c (by simp) r hr)
    apply ih (addCell R c) hp.of_cons (fun x hx => hvS x (by simp [hx])) s1 s2 s3
    intro d hd r hr
    have h1 : r.rmin ≤ c.rmin := s4 r hr
    have h2 : cellLE c d := (List.pairwise_cons.mp hp).1 d hd
    have h3 : 2 * c.rmin + 1 ≤ c.toId := by
      have := c.size_pos
      unfold CellId.toId
      omega
    unfold cellLE at h2
    omega

/-- Normalization of any list of valid cells yields a normal-form list of
valid cells. -/
theorem normalizeList_spec (S : List CellId) (hv : validList S) :
    isNormalized (normalizeList S) ∧ validList (normalizeList S) := by
  have hsorted : (sortCells S).Pairwise cellLE :=
    List.sorted_insertionSort cellLE S
  have hvs : validList (sortCells S) := by
    intro x hx
    exact hv x ((List.perm_insertionSort cellLE S).subset hx)
  obtain ⟨h1, h2, h3⟩ := foldl_addCell_spec (sortCells S) [] hsorted hvs
    List.chain'_nil trivial (by intro x hx; simp at hx)
    (by intro d hd r hr; simp at hr)
  have hrev : (((sortCells S).foldl addCell []).reverse).Chain' below :=
    List.chain'_reverse.mpr h1
  refine ⟨⟨?_, ?_, ?_⟩, ?_⟩
  · exact List.Chain'.imp (fun a b h => below_idLT h) hrev
  · have hpw := List.chain'_iff_pairwise.mp hrev
    exact hpw.imp below_not_contains
  · exact noFourSib_reverse h2
  · intro x hx
    exact h3 x (by simpa [normalizeList] using hx)

theorem pushCascade_length : ∀ (R : List CellId) (c : CellId),
    (pushCascade R c).length ≤ R.length + 1
  | [], _ => le_refl _
  | [_], _ => le_refl _
  | [_, _], _ => le_refl _
  | r1 :: r2 :: r3 :: rs, c => by
    have hun : pushCascade (r1 :: r2 :: r3 :: rs) c =
        if CellId.sib4 r3 r2 r1 c then pushCascade rs c.parent
        else c :: r1 :: r2 :: r3 :: rs := rfl
    rw [hun]
    by_cases hs : CellId.sib4 r3 r2 r1 c
    · rw [if_pos hs]
      have := pushCascade_length rs c.parent
      simp only [List.length_cons]
      omega
    · rw [if_neg hs]
      simp

theorem popContained_length (c : CellId) (R : List CellId) :
    (popContained c R).length ≤ R.length :=
  (popContained_suffix c R).length_le

theorem addCell_length (R : List CellId) (c : CellId) :
    (addCell R c).length ≤ R.length + 1 := by
  match R with
  | [] => exact le_refl _
  | r :: rs =>
    have heq : addCell (r :: rs) c =
        if r.contains c then r :: rs
        else pushCascade (popContained c (r :: rs)) c := rfl
    rw [heq]
    by_cases hcon : r.contains c
    · rw [if_pos hcon]
      simp
    · rw [if_neg hcon]
      have h1 := pushCascade_length (popContained c (r :: rs)) c
      have h2 := popContained_length c (r :: rs)
      omega

theorem foldl_addCell_length : ∀ (S R : List CellId),
    (S.foldl addCell R).length ≤ R.length + S.length
  | [], R => le_refl _
  | c :: S', R => by
    simp only [List.foldl_cons, List.length_cons]
    have h1 := foldl_addCell_length S' (addCell R c)
    have h2 := addCell_length R c
    omega

theorem normalizeList_length_le (S : List CellId) :
    (normalizeList S).length ≤ S.length := by
  unfold normalizeList
  rw [List.length_reverse]
  have h1 := foldl_addCell_length (sortCells S) []
  have h2 : (sortCells S).length = S.length :=
    (List.perm_insertionSort cellLE S).length_eq
  simp at h1
  omega

theorem minLevel_le_all : ∀ (u : List CellId), ∀ c ∈ u, minLevel u ≤ c.level := by
  intro u
  induction u with
  | nil => intro c hc; simp at hc
  | cons a t ih =>
    intro c hc
    rcases List.mem_cons.mp hc with h | h
    · subst h
      show min c.level (minLevel t) ≤ c.level
      omega
    · have := ih c h
      show min a.level (minLevel t) ≤ c.level
      omega

theorem minLevel_attained : ∀ (u : List CellId), u ≠ [] → validList u →
    ∃ c ∈ u, minLevel u = c.level := by
  intro u
  induction u with
  | nil => intro h; exact absurd rfl h
  | cons a t ih =>
    intro _ hv
    match t with
    | [] =>
      refine ⟨a, by simp, ?_⟩
      show min a.level 30 = a.level
      have := (hv a (by simp)).1
      omega
    | b :: t' =>
      rcases le_or_lt a.level (minLevel (b :: t')) with h | h
      · refine ⟨a, by simp, ?_⟩
        show min a.level (minLevel (b :: t')) = a.level
        omega
      · obtain ⟨c, hc, he⟩ := ih (by simp) (fun x hx => hv x (by simp [hx]))
        refine ⟨c, by simp [hc], ?_⟩
        show min a.level (minLevel (b :: t')) = c.level
        omega

theorem addCell_far (R : List CellId) (c : CellId)
    (hgap : ∀ r, R.head? = some r → r.rmax < c.rmin) :
    addCell R c = pushCascade R c := by
  match R with
  | [] => rfl
  | r :: rs =>
    have hr := hgap r rfl
    have hrr := r.rmin_le_rmax
    have hcc := c.rmin_le_rmax
    have hnc : ¬ r.contains c := by
      rintro ⟨h1, h2⟩
      omega
    have hpc : popContained c (r :: rs) = r :: rs := by
      unfold popContained
      rw [if_neg]
      rintro ⟨h1, h2⟩
      omega
    have heq : addCell (r :: rs) c =
        if r.contains c then r :: rs
        else pushCascade (popContained c (r :: rs)) c := rfl
    rw [heq, if_neg hnc, hpc]

theorem pushCascade_push (R : List CellId) (c : CellId)
    (h : ∀ r1 r2 r3 rs, R = r1 :: r2 :: r3 :: rs → ¬ CellId.sib4 r3 r2 r1 c) :
    pushCascade R c = c :: R := by
  match R with
  | [] => rfl
  | [_] => rfl
  | [_, _] => rfl
  | r1 :: r2 :: r3 :: rs =>
    have hun : pushCascade (r1 :: r2 :: r3 :: rs) c =
        if CellId.sib4 r3 r2 r1 c then pushCascade rs c.parent
        else c :: r1 :: r2 :: r3 :: rs := rfl
    rw [hun, if_neg (h r1 r2 r3 rs rfl)]

theorem foldr_singleton (l : List CellId) :
    l.foldr (fun c acc => [c] ++ acc) [] = l := by
  induction l with
  | nil => rfl
  | cons a t ih => simp [List.foldr_cons, ih]

/-- Folding a flattened block decomposition through `addCell`, when every
block collapses back to its root cell and the roots are interval-sorted
with no complete sibling groups, rebuilds exactly the reversed root list. -/
theorem foldl_flatten (f : CellId → List CellId) :
    ∀ (U R : List CellId),
    (∀ c ∈ U, ∀ R' : List CellId,
        (∀ r, R'.head? = some r → r.rmax < c.rmin) →
        List.foldl addCell R' (f c) = pushCascade R' c) →
    (R.reverse ++ U).Chain' below →
    noFourSib (R.reverse ++ U) →
    List.foldl addCell R (U.foldr (fun c acc => f c ++ acc) []) = U.reverse ++ R := by
  intro U
  induction U with
  | nil =>
    intro R _ _ _
    simp
  | cons c U' ih =>
    intro R hblock horder hsib
    have hfold : ((c :: U').foldr (fun c acc => f c ++ acc) []) =
        f c ++ U'.foldr (fun c acc => f c ++ acc) [] := rfl
    rw [hfold, List.foldl_append]
    have hgap : ∀ r, R.head? = some r → r.rmax < c.rmin := by
      intro r hr
      have h3 := (List.chain'_append.mp horder).2.2
      have := h3 r (by rw [List.getLast?_reverse]; exact hr) c rfl
      exact this
    rw [hblock c (by simp) R hgap]
    have hpush : pushCascade R c = c :: R := by
      apply pushCascade_push
      intro r1 r2 r3 rs hR
      intro hs
      have hin : [r3, r2, r1, c] <:+: R.reverse ++ c :: U' := by
        refine ⟨rs.reverse, U', ?_⟩
        rw [hR]
        simp
      exact (noFourSib_iff_quad _).mp hsib r3 r2 r1 c hin hs
    rw [hpush]
    have hord' : ((c :: R).reverse ++ U').Chain' below := by
      simpa using horder
    have hsib' : noFourSib ((c :: R).reverse ++ U') := by
      have : (c :: R).reverse ++ U' = R.reverse ++ c :: U' := by simp
      rw [this]
      exact hsib
    rw [ih (c :: R) (fun d hd => hblock d (by simp [hd])) hord' hsib']
    simp

/-- Adjacent cells of a normal-form list are interval-disjoint in order. -/
theorem chain_below_of_norm :
    ∀ (U : List CellId), U.Chain' idLT →
    U.Pairwise (fun a b => ¬ a.contains b ∧ ¬ b.contains a) → U.Chain' below := by
  intro U
  induction U with
  | nil => intro _ _; exact List.chain'_nil
  | cons a t ih =>
    intro hc hp
    rcases t with _ | ⟨b, t'⟩
    · exact List.chain'_singleton a
    · obtain ⟨h1, h2⟩ := List.chain'_cons.mp hc
      obtain ⟨h3, h4⟩ := List.pairwise_cons.mp hp
      have hnc := h3 b (by simp)
      rw [List.chain'_cons]
      refine ⟨?_, ih h2 h4⟩
      rcases CellId.disjoint_of_not_nested hnc.1 hnc.2 with h | h
      · exact h
      · exact absurd (CellId.toId_lt_of_below h) (by
          unfold idLT at h1
          omega)

/-- Normalization leaves a valid normal-form list unchanged. -/
theorem normalizeList_eq_self (U : List CellId) (hn : isNormalized U)
    (hv : validList U) : normalizeList U = U := by
  obtain ⟨hchain, hpw, hns⟩ := hn
  have hsorted : U.Sorted cellLE := by
    have h1 : U.Pairwise idLT := List.chain'_iff_pairwise.mp hchain
    exact h1.imp (fun h => Nat.le_of_lt h)
  have hss : sortCells U = U := hsorted.insertionSort_eq
  have hbelow : U.Chain' below := chain_below_of_norm U hchain hpw
  have hblock : ∀ c ∈ U, ∀ R' : List CellId,
      (∀ r, R'.head? = some r → r.rmax < c.rmin) →
      List.foldl addCell R' ((fun c => [c]) c) = pushCascade R' c := by
    intro c _ R' hgap
    show List.foldl addCell R' [c] = pushCascade R' c
    have : List.foldl addCell R' [c] = addCell R' c := rfl
    rw [this, addCell_far R' c hgap]
  have h := foldl_flatten (fun c => [c]) U [] hblock (by simpa) (by simpa)
  rw [foldr_singleton] at h
  unfold normalizeList
  rw [hss, h]
  simp

/-- C3: for every input sequence, `Normalize` returns true exactly when the
normal-form result has strictly fewer elements than the input, and the
result is never longer than the input. -/
theorem claim_C3_normalize_return (S : List CellId) :
    ((NormalizeOp S).1 = true ↔ (NormalizeOp S).2.length < S.length) ∧
    (NormalizeOp S).2.length ≤ S.length := by
  constructor
  · simp [NormalizeOp]
  · exact normalizeList_length_le S

/-- C5: for a non-empty union of valid cells, the radius-based expansion
performs the neighbor expansion at level `min(L_θ, m + D)` clamped to
`[0, 30]`, where `m` is the level of the coarsest cell (attained and
minimal); in particular with a single level-5 cell, `D = 3` and
`ClosestLevel(θ) = 10` the chosen level is 8. -/
theorem claim_C5_expand_radius (nbrs : CellId → Nat → List CellId)
    (Ltheta D : Nat) (u : List CellId) (hne : u ≠ []) (hv : validList u) :
    ExpandRadius nbrs Ltheta D u =
      Expand nbrs (min (min Ltheta (minLevel u + D)) 30) u ∧
    (∃ c ∈ u, minLevel u = c.level) ∧ (∀ c ∈ u, minLevel u ≤ c.level) ∧
    expandLevelFor 10 3 [⟨5, 0⟩] = 8 := by
  refine ⟨rfl, minLevel_attained u hne hv, minLevel_le_all u, by decide⟩

/-- Witness for C5 at a concrete input: the single level-5 cell `0/5`,
`D = 3`, `ClosestLevel(θ) = 10`, with an empty neighbor enumeration. -/
theorem claim_C5_expand_radius_witness :
    ExpandRadius (fun _ _ => []) 10 3 [⟨5, 0⟩] =
      Expand (fun _ _ => []) (min (min 10 (minLevel [⟨5, 0⟩] + 3)) 30) [⟨5, 0⟩] ∧
    expandLevelFor 10 3 [⟨5, 0⟩] = 8 := by
  have h := claim_C5_expand_radius (fun _ _ => []) 10 3 [⟨5, 0⟩]
    (by simp) (by decide)
  exact ⟨h.1, h.2.2.2⟩

theorem interAux_nil : ∀ (f : Nat) (x : List CellId), interAux f x [] = [] := by
  intro f x
  match f, x with
  | 0, _ => rfl
  | _ + 1, [] => rfl
  | _ + 1, _ :: _ => rfl

theorem diffAux_empty (c : CellId) : diffAux [] 31 c = [c] := rfl

theorem foldr_diffAux_empty (X : List CellId) :
    X.foldr (fun c acc => diffAux [] 31 c ++ acc) [] = X := by
  induction X with
  | nil => rfl
  | cons c t ih => simp [List.foldr_cons, diffAux_empty, ih]

/-- C6: a default-constructed union is empty; on the empty union `Contains`
and `Intersects` return false and the leaf count and all area methods
return zero; and the empty union is a right identity for union and
difference and a right annihilator for intersection on normal-form
unions. -/
theorem claim_C6_empty_union (c : CellId) (a : ℚ) (f g : CellId → ℚ)
    (X : List CellId) (hn : isNormalized X) (hv : validList X) :
    emptyUnion = ([] : List CellId) ∧
    containsIdU emptyUnion c = false ∧
    intersectsIdU emptyUnion c = false ∧
    LeafCellsCovered emptyUnion = 0 ∧
    AverageBasedArea a emptyUnion = 0 ∧
    ApproxArea f emptyUnion = 0 ∧
    ExactArea g emptyUnion = 0 ∧
    GetUnion X emptyUnion = X ∧
    GetIntersection X emptyUnion = emptyUnion ∧
    GetDifference X emptyUnion = X := by
  refine ⟨rfl, rfl, rfl, rfl, ?_, rfl, rfl, ?_, ?_, ?_⟩
  · show a * ((LeafCellsCovered [] : Nat) : ℚ) = 0
    show a * ((0 : Nat) : ℚ) = 0
    simp
  · show normalizeList (X ++ []) = X
    rw [List.append_nil]
    exact normalizeList_eq_self X hn hv
  · show normalizeList (interAux (X.length + [].length) X []) = []
    rw [interAux_nil]
    rfl
  · show normalizeList (X.foldr (fun c acc => diffAux [] 31 c ++ acc) []) = X
    rw [foldr_diffAux_empty]
    exact normalizeList_eq_self X hn hv

/-- Witness for C6 at concrete inputs: the cell `2/7`, a nonzero average
leaf area, unit per-cell areas, and the one-cell union `{0/0}`. -/
theorem claim_C6_empty_union_witness :
    containsIdU emptyUnion ⟨2, 7⟩ = false ∧
    GetUnion [⟨0, 0⟩] emptyUnion = [⟨0, 0⟩] ∧
    GetIntersection [⟨0, 0⟩] emptyUnion = emptyUnion ∧
    GetDifference [⟨0, 0⟩] emptyUnion = [⟨0, 0⟩] := by
  have h := claim_C6_empty_union ⟨2, 7⟩ (1 / 2) (fun _ => 1) (fun _ => 1)
    [⟨0, 0⟩] (by decide) (by decide)
  exact ⟨h.2.1, h.2.2.2.2.2.2.2.1, h.2.2.2.2.2.2.2.2.1, h.2.2.2.2.2.2.2.2.2⟩

theorem growAux_unfold (hi fuel : Nat) (c : CellId) :
    growAux hi (fuel + 1) c =
      if c.level = 0 then c
      else if c.parent.rmin = c.rmin ∧ c.parent.rmax ≤ hi then
        growAux hi fuel c.parent
      else c := rfl

theorem growAux_rmin (hi : Nat) : ∀ (fuel : Nat) (c : CellId),
    (growAux hi fuel c).rmin = c.rmin
  | 0, c => rfl
  | fuel + 1, c => by
    rw [growAux_unfold]
    by_cases h1 : c.level = 0
    · rw [if_pos h1]
    · rw [if_neg h1]
      by_cases h2 : c.parent.rmin = c.rmin ∧ c.parent.rmax ≤ hi
      · rw [if_pos h2, growAux_rmin hi fuel c.parent, h2.1]
      · rw [if_neg h2]

theorem growAux_rmax_le (hi : Nat) : ∀ (fuel : Nat) (c : CellId),
    c.rmax ≤ hi → (growAux hi fuel c).rmax ≤ hi
  | 0, _, h => h
  | fuel + 1, c, h => by
    rw [growAux_unfold]
    by_cases h1 : c.level = 0
    · rw [if_pos h1]
      exact h
    · rw [if_neg h1]
      by_cases h2 : c.parent.rmin = c.rmin ∧ c.parent.rmax ≤ hi
      · rw [if_pos h2]
        exact growAux_rmax_le hi fuel c.parent h2.2
      · rw [if_neg h2]
        exact h

theorem growAux_level_le (hi : Nat) : ∀ (fuel : Nat) (c : CellId),
    (growAux hi fuel c).level ≤ c.level
  | 0, _ => le_refl _
  | fuel + 1, c => by
    rw [growAux_unfold]
    by_cases h1 : c.level = 0
    · rw [if_pos h1]
    · rw [if_neg h1]
      by_cases h2 : c.parent.rmin = c.rmin ∧ c.parent.rmax ≤ hi
      · rw [if_pos h2]
        have := growAux_level_le hi fuel c.parent
        show _ ≤ c.level
        have hp : c.parent.level = c.level - 1 := rfl
        omega
      · rw [if_neg h2]

/-- A cell emitted by the greedy range cover is maximal: it is a face cell
or its parent either starts earlier or extends past the window end. -/
def maximalFor (hi : Nat) (g : CellId) : Prop :=
  g.level = 0 ∨ ¬ (g.parent.rmin = g.rmin ∧ g.parent.rmax ≤ hi)

theorem growAux_maximal (hi : Nat) : ∀ (fuel : Nat) (c : CellId),
    c.level ≤ fuel → maximalFor hi (growAux hi fuel c)
  | 0, c, h => by
    have he : growAux hi 0 c = c := rfl
    rw [he]
    left
    omega
  | fuel + 1, c, h => by
    rw [growAux_unfold]
    by_cases h1 : c.level = 0
    · rw [if_pos h1]
      exact Or.inl h1
    · rw [if_neg h1]
      by_cases h2 : c.parent.rmin = c.rmin ∧ c.parent.rmax ≤ hi
      · rw [if_pos h2]
        apply growAux_maximal hi fuel c.parent
        have hp : c.parent.level = c.level - 1 := rfl
        omega
      · rw [if_neg h2]
        exact Or.inr h2

theorem rangeAux_empty_of_gt (hi : Nat) : ∀ (fuel lo : Nat), hi < lo →
    rangeAux hi fuel lo = [] := by
  intro fuel lo h
  match fuel with
  | 0 => rfl
  | f + 1 =>
    show (if lo ≤ hi then _ else []) = []
    rw [if_neg (by omega)]

theorem rangeAux_unfold (hi fuel lo : Nat) :
    rangeAux hi (fuel + 1) lo =
      if lo ≤ hi then
        (growAux hi 30 ⟨30, lo⟩) ::
          rangeAux hi fuel ((growAux hi 30 ⟨30, lo⟩).rmax + 1)
      else [] := rfl

theorem leaf_rmin (lo : Nat) : (CellId.mk 30 lo).rmin = lo := by
  show lo * 4 ^ (30 - 30) = lo
  norm_num

theorem leaf_rmax (lo : Nat) : (CellId.mk 30 lo).rmax = lo := by
  show (CellId.mk 30 lo).rmin + (4 ^ (30 - 30) - 1) = lo
  rw [leaf_rmin]
  norm_num

theorem rangeAux_count (hi : Nat) : ∀ (fuel lo : Nat), lo ≤ hi →
    hi + 1 - lo ≤ fuel → LeafCellsCovered (rangeAux hi fuel lo) = hi + 1 - lo
  | 0, lo, hlo, hf => by omega
  | fuel + 1, lo, hlo, hf => by
    rw [rangeAux_unfold, if_pos hlo]
    set g := growAux hi 30 ⟨30, lo⟩ with hg
    have hgmin : g.rmin = lo := by
      rw [hg, growAux_rmin, leaf_rmin]
    have hgmax : g.rmax ≤ hi := by
      rw [hg]
      exact growAux_rmax_le hi 30 _ (by rw [leaf_rmax]; exact hlo)
    have hsz : g.rmax + 1 = g.rmin + g.size := g.rmax_succ
    have hszpos := g.size_pos
    have hLC : LeafCellsCovered (g :: rangeAux hi fuel (g.rmax + 1)) =
        g.size + LeafCellsCovered (rangeAux hi fuel (g.rmax + 1)) := rfl
    rw [hLC]
    rcases Nat.lt_or_ge g.rmax hi with hlt | hge
    · have hrec := rangeAux_count hi fuel (g.rmax + 1) (by omega) (by omega)
      rw [hrec]
      omega
    · have heq : g.rmax = hi := by omega
      rw [rangeAux_empty_of_gt hi fuel (g.rmax + 1) (by omega)]
      show g.size + 0 = hi + 1 - lo
      omega

/-- C2: building a union from the closed leaf range `[a, b]` and counting
the covered leaves yields exactly `b - a + 1` in leaf-id arithmetic along
the Hilbert order. -/
theorem claim_C2_range_leaf_count (a b : CellId) (ha : a.level = 30)
    (hb : b.level = 30) (hav : a.isValid) (hbv : b.isValid)
    (hle : cellLE a b) :
    LeafCellsCovered (InitFromRange a b) = b.pos - a.pos + 1 := by
  have hsa : a.size = 1 := by
    unfold CellId.size
    rw [ha]
    norm_num
  have hsb : b.size = 1 := by
    unfold CellId.size
    rw [hb]
    norm_num
  have hra := CellId.rmin_def a
  have hrb := CellId.rmin_def b
  rw [hsa, mul_one] at hra
  rw [hsb, mul_one] at hrb
  have hpos : a.pos ≤ b.pos := by
    unfold cellLE CellId.toId at hle
    omega
  unfold InitFromRange
  have h := rangeAux_count b.pos (b.pos + 1 - a.pos) a.pos hpos (le_refl _)
  omega

/-- Witness for C2 at the concrete leaf range from leaf 5 to leaf 21 of
face 0: seventeen leaves are covered. -/
theorem claim_C2_range_leaf_count_witness :
    LeafCellsCovered (InitFromRange ⟨30, 5⟩ ⟨30, 21⟩) = 17 := by
  have h := claim_C2_range_leaf_count ⟨30, 5⟩ ⟨30, 21⟩ rfl rfl (by decide)
    (by decide) (by decide)
  simpa using h

/-- C7: `Encode` always signals the unimplemented fatal error and never
returns normally, and `Decode` returns false leaving the union unchanged. -/
theorem claim_C7_encode_decode (u : List CellId) :
    Encode u = Except.error EncodeSignal.fatalUnimplemented ∧
    (∀ r : Unit, Encode u ≠ Except.ok r) ∧
    Decode u = (false, u) := by
  refine ⟨rfl, ?_, rfl⟩
  intro r h
  simp [Encode] at h

/-- C8: `VirtualContainsPoint` returns exactly the same boolean as the
non-virtual `Contains(Point)` on every union and point. -/
theorem claim_C8_virtual_contains (u : List CellId) (p : CellId) :
    VirtualContainsPoint u p = ContainsPoint u p := rfl

/-- C9: `Vector2::Normalize` never divides by zero: when the norm is zero
the scale factor stays zero and the result is the zero vector, otherwise
the vector is scaled by the reciprocal of its norm. -/
theorem claim_C9_normalize_guard (v : Vector2 ℝ) :
    v.Normalize =
      if v.Norm = 0 then (⟨0, 0⟩ : Vector2 ℝ) else v.mulScalar (1 / v.Norm) := by
  unfold Vector2.Normalize
  by_cases h : v.Norm = 0
  · rw [if_pos h, if_neg (not_not_intro h), h]
    unfold Vector2.mulScalar
    simp
  · rw [if_neg h, if_pos h]

/-- C10: `Ortho` returns `(-y, x)`, it is orthogonal to the original vector
and has the same squared norm, with arithmetic taken modulo `2 ^ w` on
`w`-bit integer component types. -/
theorem claim_C10_ortho (w : Nat) (v : Vector2 (ZMod (2 ^ w))) :
    v.Ortho = ⟨-v.y, v.x⟩ ∧ v.DotProd v.Ortho = 0 ∧ v.Ortho.Norm2 = v.Norm2 := by
  refine ⟨rfl, ?_, ?_⟩
  · show v.x * (-v.y) + v.y * v.x = 0
    ring
  · show (-v.y) * (-v.y) + v.x * v.x = v.x * v.x + v.y * v.y
    ring

namespace CellId

theorem rmin_le_of_parent {r c : CellId} (h : r.parent = c) (hl : 1 ≤ r.level)
    (hc : c.level ≤ 29) : c.rmin ≤ r.rmin := by
  have hlev : c.level = r.level - 1 := by rw [← h]; rfl
  have hpos : c.pos = r.pos / 4 := by rw [← h]; rfl
  have hr30 : r.level ≤ 30 := by omega
  have hsz : c.size = 4 * r.size := by
    show (4:Nat) ^ (30 - c.level) = 4 * 4 ^ (30 - r.level)
    rw [hlev]
    have he : 30 - (r.level - 1) = (30 - r.level) + 1 := by omega
    rw [he, pow_succ]
    ring
  rw [rmin_def, rmin_def, hpos, hsz]
  calc (r.pos / 4) * (4 * r.size) = ((r.pos / 4) * 4) * r.size := by ring
  _ ≤ r.pos * r.size := Nat.mul_le_mul_right _ (Nat.div_mul_le_self _ _)

theorem child_isValid {c : CellId} (hc : c.isValid) (hl : c.level ≤ 29)
    {k : Nat} (hk : k < 4) : (c.child k).isValid := by
  obtain ⟨h30, hpos⟩ := hc
  constructor
  · show c.level + 1 ≤ 30
    omega
  · show 4 * c.pos + k < 6 * 4 ^ (c.level + 1)
    have hp : (4:Nat) ^ (c.level + 1) = 4 ^ c.level * 4 := pow_succ 4 c.level
    calc 4 * c.pos + k < 4 * (c.pos + 1) := by omega
    _ ≤ 4 * (6 * 4 ^ c.level) := by omega
    _ = 6 * 4 ^ (c.level + 1) := by rw [hp]; ring

theorem child_ne {c : CellId} {i j : Nat} (h : i ≠ j) : c.child i ≠ c.child j := by
  intro he
  have hp := congrArg CellId.pos he
  simp [child] at hp
  omega

end CellId

/-- Contradiction pattern for blocked cascades: the head of the stack lies
strictly below the block root, so it cannot be a child of that root. -/
theorem head_child_contra {r1 c : CellId} (hpar : r1.parent = c)
    (hl : 1 ≤ r1.level) (hc29 : c.level ≤ 29) (hb : r1.rmax < c.rmin) :
    False := by
  have h1 := CellId.rmin_le_of_parent hpar hl hc29
  have h2 := r1.rmin_le_rmax
  omega

/-- Feeding the complete level-`(level + n)` descendant list of a valid
cell into the stack collapses it back to a single push of the cell. -/
theorem foldl_desc : ∀ (n : Nat) (c : CellId) (R : List CellId),
    c.isValid → c.level + n ≤ 30 →
    (∀ r, R.head? = some r → r.rmax < c.rmin) →
    List.foldl addCell R (descListAux n c) = pushCascade R c
  | 0, c, R, _, _, hgap => by
    have he : descListAux 0 c = [c] := rfl
    rw [he]
    have hf : List.foldl addCell R [c] = addCell R c := rfl
    rw [hf, addCell_far R c hgap]
  | n + 1, c, R, hcv, hlev, hgap => by
    have hl29 : c.level ≤ 29 := by omega
    have hcp0 : (c.child 0).parent = c := CellId.child_parent c 0 (by omega)
    have hcp1 : (c.child 1).parent = c := CellId.child_parent c 1 (by omega)
    have hcp2 : (c.child 2).parent = c := CellId.child_parent c 2 (by omega)
    have hcp3 : (c.child 3).parent = c := CellId.child_parent c 3 (by omega)
    have hclev : ∀ k, (c.child k).level = c.level + 1 := fun k => rfl
    have he : descListAux (n + 1) c =
        ((descListAux n (c.child 0) ++ descListAux n (c.child 1)) ++
          descListAux n (c.child 2)) ++ descListAux n (c.child 3) := rfl
    rw [he, List.foldl_append, List.foldl_append, List.foldl_append]
    have hv0 := CellId.child_isValid hcv hl29 (show 0 < 4 by omega)
    have hv1 := CellId.child_isValid hcv hl29 (show 1 < 4 by omega)
    have hv2 := CellId.child_isValid hcv hl29 (show 2 < 4 by omega)
    have hv3 := CellId.child_isValid hcv hl29 (show 3 < 4 by omega)
    have hlv : ∀ k, (c.child k).level + n ≤ 30 := by
      intro k
      rw [hclev]
      omega
    have ht0 : (c.child 0).rmax + 1 = (c.child 1).rmin := CellId.child_tile hl29 0
    have ht1 : (c.child 1).rmax + 1 = (c.child 2).rmin := CellId.child_tile hl29 1
    have ht2 : (c.child 2).rmax + 1 = (c.child 3).rmin := CellId.child_tile hl29 2
    -- step 0
    have h0 := foldl_desc n (c.child 0) R hv0 (hlv 0) (by
      intro r hr
      have := hgap r hr
      rw [CellId.child_zero_rmin hl29]
      exact this)
    rw [h0]
    have hp0 : pushCascade R (c.child 0) = c.child 0 :: R := by
      apply pushCascade_push
      intro a b d rs hR hs
      obtain ⟨_, _, l3, _, _, _, p3, _⟩ := hs
      have hbh : R.head? = some a := by rw [hR]; rfl
      exact head_child_contra (p3.trans hcp0) l3 hl29 (hgap a hbh)
    rw [hp0]
    -- step 1
    have h1 := foldl_desc n (c.child 1) (c.child 0 :: R) hv1 (hlv 1) (by
      intro r hr
      have hrr : c.child 0 = r := by simpa using hr
      subst hrr
      omega)
    rw [h1]
    have hp1 : pushCascade (c.child 0 :: R) (c.child 1) =
        c.child 1 :: c.child 0 :: R := by
      apply pushCascade_push
      intro a b d rs hR hs
      obtain ⟨_, l2, _, _, _, p2, _, _⟩ := hs
      simp only [List.cons.injEq] at hR
      obtain ⟨ha, hR2⟩ := hR
      have hbh : R.head? = some b := by rw [hR2]; rfl
      exact head_child_contra (p2.trans hcp1) l2 hl29 (hgap b hbh)
    rw [hp1]
    -- step 2
    have h2 := foldl_desc n (c.child 2) (c.child 1 :: c.child 0 :: R) hv2
      (hlv 2) (by
        intro r hr
        have hrr : c.child 1 = r := by simpa using hr
        subst hrr
        omega)
    rw [h2]
    have hp2 : pushCascade (c.child 1 :: c.child 0 :: R) (c.child 2) =
        c.child 2 :: c.child 1 :: c.child 0 :: R := by
      apply pushCascade_push
      intro a b d rs hR hs
      obtain ⟨l1, _, _, _, p1, _, _, _⟩ := hs
      simp only [List.cons.injEq] at hR
      obtain ⟨ha, hb2, hR2⟩ := hR
      have hbh : R.head? = some d := by rw [hR2]; rfl
      exact head_child_contra (p1.trans hcp2) l1 hl29 (hgap d hbh)
    rw [hp2]
    -- step 3: the four children collapse back to the parent cell
    have h3 := foldl_desc n (c.child 3)
      (c.child 2 :: c.child 1 :: c.child 0 :: R) hv3 (hlv 3) (by
        intro r hr
        have hrr : c.child 2 = r := by simpa using hr
        subst hrr
        omega)
    rw [h3]
    have hs4 : CellId.sib4 (c.child 0) (c.child 1) (c.child 2) (c.child 3) := by
      refine ⟨?_, ?_, ?_, ?_, ?_, ?_, ?_, ?_, ?_, ?_, ?_, ?_, ?_⟩
      · show 1 ≤ c.level + 1
        omega
      · show 1 ≤ c.level + 1
        omega
      · show 1 ≤ c.level + 1
        omega
      · show 1 ≤ c.level + 1
        omega
      · exact hcp0.trans hcp3.symm
      · exact hcp1.trans hcp3.symm
      · exact hcp2.trans hcp3.symm
      · exact CellId.child_ne (by omega)
      · exact CellId.child_ne (by omega)
      · exact CellId.child_ne (by omega)
      · exact CellId.child_ne (by omega)
      · exact CellId.child_ne (by omega)
      · exact CellId.child_ne (by omega)
    have hpc : pushCascade (c.child 2 :: c.child 1 :: c.child 0 :: R)
        (c.child 3) = pushCascade R (c.child 3).parent := by
      have hun : pushCascade (c.child 2 :: c.child 1 :: c.child 0 :: R)
          (c.child 3) =
          if CellId.sib4 (c.child 0) (c.child 1) (c.child 2) (c.child 3) then
            pushCascade R (c.child 3).parent
          else c.child 3 :: c.child 2 :: c.child 1 :: c.child 0 :: R := rfl
      rw [hun, if_pos hs4]
    rw [hpc, hcp3]

/-- The full level-`(level + n)` descendant list of a cell is nonempty,
starts at the cell's first leaf, ends at its last leaf, and tiles the
cell's leaf range contiguously. -/
theorem descListAux_spec : ∀ (n : Nat) (c : CellId), c.level + n ≤ 30 →
    descListAux n c ≠ [] ∧
    (∀ r, (descListAux n c).head? = some r → r.rmin = c.rmin) ∧
    (∀ r, (descListAux n c).getLast? = some r → r.rmax = c.rmax) ∧
    (descListAux n c).Chain' (fun a b => a.rmax + 1 = b.rmin)
  | 0, c, _ => by
    have he : descListAux 0 c = [c] := rfl
    rw [he]
    refine ⟨by simp, ?_, ?_, List.chain'_singleton c⟩
    · intro r hr
      have : c = r := by simpa using hr
      rw [← this]
    · intro r hr
      have : c = r := by simpa using hr
      rw [← this]
  | n + 1, c, h => by
    have hl29 : c.level ≤ 29 := by omega
    have hlv : ∀ k, (c.child k).level + n ≤ 30 := by
      intro k
      show c.level + 1 + n ≤ 30
      omega
    obtain ⟨ne0, hd0, gl0, ch0⟩ := descListAux_spec n (c.child 0) (hlv 0)
    obtain ⟨ne1, hd1, gl1, ch1⟩ := descListAux_spec n (c.child 1) (hlv 1)
    obtain ⟨ne2, hd2, gl2, ch2⟩ := descListAux_spec n (c.child 2) (hlv 2)
    obtain ⟨ne3, hd3, gl3, ch3⟩ := descListAux_spec n (c.child 3) (hlv 3)
    have ht0 : (c.child 0).rmax + 1 = (c.child 1).rmin := CellId.child_tile hl29 0
    have ht1 : (c.child 1).rmax + 1 = (c.child 2).rmin := CellId.child_tile hl29 1
    have ht2 : (c.child 2).rmax + 1 = (c.child 3).rmin := CellId.child_tile hl29 2
    have he : descListAux (n + 1) c =
        ((descListAux n (c.child 0) ++ descListAux n (c.child 1)) ++
          descListAux n (c.child 2)) ++ descListAux n (c.child 3) := rfl
    rw [he]
    have ne01 : descListAux n (c.child 0) ++ descListAux n (c.child 1) ≠ [] := by
      intro hC
      rw [List.append_eq_nil] at hC
      exact ne0 hC.1
    have ne012 : (descListAux n (c.child 0) ++ descListAux n (c.child 1)) ++
        descListAux n (c.child 2) ≠ [] := by
      intro hC
      rw [List.append_eq_nil] at hC
      exact ne01 hC.1
    refine ⟨?_, ?_, ?_, ?_⟩
    · intro hC
      rw [List.append_eq_nil] at hC
      exact ne012 hC.1
    · intro r hr
      rw [List.head?_append_of_ne_nil _ ne012,
        List.head?_append_of_ne_nil _ ne01,
        List.head?_append_of_ne_nil _ ne0] at hr
      rw [hd0 r hr, CellId.child_zero_rmin hl29]
    · intro r hr
      rw [List.getLast?_append_of_ne_nil _ ne3] at hr
      rw [gl3 r hr, CellId.child_three_rmax hl29]
    · refine List.Chain'.append
        (List.Chain'.append (List.Chain'.append ch0 ch1 ?_) ch2 ?_) ch3 ?_
      · intro x hx y hy
        rw [gl0 x hx, hd1 y hy]
        exact ht0
      · intro x hx y hy
        rw [List.getLast?_append_of_ne_nil _ ne1] at hx
        rw [gl1 x hx, hd2 y hy]
        exact ht1
      · intro x hx y hy
        rw [List.getLast?_append_of_ne_nil _ ne2] at hx
        rw [gl2 x hx, hd3 y hy]
        exact ht2

theorem denormLevel_bounds (minL mod lv : Nat) (hlv : lv ≤ 30) :
    lv ≤ denormLevel minL mod lv ∧ denormLevel minL mod lv ≤ 30 := by
  unfold denormLevel
  omega

/-- The denormalized list of an interval-sorted valid union is itself
interval-sorted, and its first cell starts where the first input cell
starts. -/
theorem denorm_below (minL mod : Nat) : ∀ (U : List CellId), validList U →
    U.Chain' below →
    (Denormalize minL mod U).Chain' below ∧
    ∀ r u, (Denormalize minL mod U).head? = some r → U.head? = some u →
      r.rmin = u.rmin := by
  intro U
  induction U with
  | nil =>
    intro _ _
    refine ⟨List.chain'_nil, ?_⟩
    intro r u hr
    simp [Denormalize] at hr
  | cons u U' ih =>
    intro hv hch
    have hu := hv u (by simp)
    have hb := denormLevel_bounds minL mod u.level hu.1
    have hlev : u.level + (denormLevel minL mod u.level - u.level) ≤ 30 := by
      omega
    obtain ⟨hne, hhead, hlast, hchain⟩ :=
      descListAux_spec (denormLevel minL mod u.level - u.level) u hlev
    obtain ⟨ihc, ihh⟩ := ih (fun x hx => hv x (by simp [hx])) hch.tail
    have hde : Denormalize minL mod (u :: U') =
        descListAux (denormLevel minL mod u.level - u.level) u ++
          Denormalize minL mod U' := rfl
    rw [hde]
    constructor
    · refine List.Chain'.append ?_ ihc ?_
      · exact hchain.imp (fun a b hab => by
          show a.rmax < b.rmin
          omega)
      · intro x hx y hy
        match U' with
        | [] => simp [Denormalize] at hy
        | u2 :: U'' =>
          have h1 := ihh y u2 hy rfl
          have h2 : below u u2 := (List.chain'_cons.mp hch).1
          have h3 := hlast x hx
          show x.rmax < y.rmin
          unfold below at h2
          omega
    · intro r u' hr hu'
      have huu : u = u' := by simpa using hu'
      subst huu
      rw [List.head?_append_of_ne_nil _ hne] at hr
      exact hhead r hr

/-- C4: for every valid normal-form union and valid denormalization
parameters, denormalizing and then initializing from the output
re-collapses to exactly the original union. -/
theorem claim_C4_denormalize_roundtrip (U : List CellId) (minL mod : Nat)
    (hn : isNormalized U) (hv : validList U) (hminL : minL ≤ 30)
    (hmod1 : 1 ≤ mod) (hmod3 : mod ≤ 3) :
    Init (Denormalize minL mod U) = U := by
  obtain ⟨hchain, hpw, hns⟩ := hn
  have hbelow : U.Chain' below := chain_below_of_norm U hchain hpw
  obtain ⟨hdb, _⟩ := denorm_below minL mod U hv hbelow
  have hsorted : (Denormalize minL mod U).Sorted cellLE := by
    have h1 := List.chain'_iff_pairwise.mp hdb
    exact h1.imp (fun h => Nat.le_of_lt (below_idLT h))
  have hss : sortCells (Denormalize minL mod U) = Denormalize minL mod U :=
    hsorted.insertionSort_eq
  have hblock : ∀ c ∈ U, ∀ R' : List CellId,
      (∀ r, R'.head? = some r → r.rmax < c.rmin) →
      List.foldl addCell R'
        ((fun c => descListAux (denormLevel minL mod c.level - c.level) c) c) =
        pushCascade R' c := by
    intro c hc R' hgap
    refine foldl_desc _ c R' (hv c hc) ?_ hgap
    have := denormLevel_bounds minL mod c.level (hv c hc).1
    omega
  have h := foldl_flatten
    (fun c => descListAux (denormLevel minL mod c.level - c.level) c) U []
    hblock (by simpa) (by simpa)
  have hde : Denormalize minL mod U =
      U.foldr
        (fun c acc =>
          (fun c => descListAux (denormLevel minL mod c.level - c.level) c) c ++
            acc) [] := rfl
  unfold Init normalizeList
  rw [hss, hde, h]
  simp

/-- Witness for C4 at a concrete input: the union `{0/1/2}` (a level-1
cell), `min_level = 2`, `level_mod = 2`; the denormalized covering
re-collapses to the original single cell. -/
theorem claim_C4_denormalize_roundtrip_witness :
    Init (Denormalize 2 2 [⟨1, 2⟩]) = [⟨1, 2⟩] :=
  claim_C4_denormalize_roundtrip [⟨1, 2⟩] 2 2 (by decide) (by decide)
    (by decide) (by decide) (by decide)

theorem foldl_sel_base (P : CellId → Prop) [DecidablePred P] :
    ∀ (u : List CellId) (acc : Option CellId),
    u.foldl (fun acc r => if P r then some r else acc) acc = acc ∨
    ∃ q ∈ u, u.foldl (fun acc r => if P r then some r else acc) acc = some q ∧
      P q := by
  intro u
  induction u with
  | nil => intro acc; exact Or.inl rfl
  | cons x t ih =>
    intro acc
    have hf : (x :: t).foldl (fun acc r => if P r then some r else acc) acc =
        t.foldl (fun acc r => if P r then some r else acc)
          (if P x then some x else acc) := rfl
    rw [hf]
    by_cases hx : P x
    · rw [if_pos hx]
      rcases ih (some x) with h | ⟨q, hq1, hq2, hq3⟩
      · exact Or.inr ⟨x, by simp, h, hx⟩
      · exact Or.inr ⟨q, by simp [hq1], hq2, hq3⟩
    · rw [if_neg hx]
      rcases ih acc with h | ⟨q, hq1, hq2, hq3⟩
      · exact Or.inl h
      · exact Or.inr ⟨q, by simp [hq1], hq2, hq3⟩

theorem foldl_sel_spec (P : CellId → Prop) [DecidablePred P] :
    ∀ (u : List CellId) (acc : Option CellId), u.Pairwise cellLE →
    ∀ p ∈ u, P p →
    ∃ q, u.foldl (fun acc r => if P r then some r else acc) acc = some q ∧
      cellLE p q ∧ P q ∧ q ∈ u := by
  intro u
  induction u with
  | nil =>
    intro acc _ p hp
    simp at hp
  | cons x t ih =>
    intro acc hpw p hp hP
    have hf : (x :: t).foldl (fun acc r => if P r then some r else acc) acc =
        t.foldl (fun acc r => if P r then some r else acc)
          (if P x then some x else acc) := rfl
    rw [hf]
    obtain ⟨hhead, htail⟩ := List.pairwise_cons.mp hpw
    rcases List.mem_cons.mp hp with rfl | hpt
    · rw [if_pos hP]
      rcases foldl_sel_base P t (some p) with h | ⟨q, hq1, hq2, hq3⟩
      · exact ⟨p, h, Nat.le_refl _, hP, by simp⟩
      · exact ⟨q, hq2, hhead q hq1, hq3, by simp [hq1]⟩
    · obtain ⟨q, hq1, hq2, hq3, hq4⟩ := ih _ htail p hpt hP
      exact ⟨q, hq1, hq2, hq3, by simp [hq4]⟩

theorem foldr_sel_some (P : CellId → Prop) [DecidablePred P] :
    ∀ (u : List CellId) (p : CellId),
    u.foldr (fun r acc => if P r then some r else acc) none = some p →
    p ∈ u ∧ P p := by
  intro u
  induction u with
  | nil =>
    intro p hp
    simp at hp
  | cons x t ih =>
    intro p hp
    have hf : (x :: t).foldr (fun r acc => if P r then some r else acc) none =
        if P x then some x
        else t.foldr (fun r acc => if P r then some r else acc) none := rfl
    rw [hf] at hp
    by_cases hx : P x
    · rw [if_pos hx] at hp
      have : x = p := by simpa using hp
      subst this
      exact ⟨by simp, hx⟩
    · rw [if_neg hx] at hp
      obtain ⟨h1, h2⟩ := ih p hp
      exact ⟨by simp [h1], h2⟩

theorem pairwise_mem_or {α : Type} {R : α → α → Prop} :
    ∀ {l : List α}, l.Pairwise R →
    ∀ {a b : α}, a ∈ l → b ∈ l → a ≠ b → R a b ∨ R b a := by
  intro l hp
  induction hp with
  | nil =>
    intro a b ha
    simp at ha
  | @cons x t hx ht ih =>
    intro a b ha hb hne
    rcases List.mem_cons.mp ha with rfl | ha'
    · rcases List.mem_cons.mp hb with rfl | hb'
      · exact absurd rfl hne
      · exact Or.inl (hx b hb')
    · rcases List.mem_cons.mp hb with rfl | hb'
      · exact Or.inr (hx a ha')
      · exact ih ha' hb' hne

/-- On a normal-form union, a leaf that intersects the union is contained
in it: the two binary searches of §4.2 agree on leaves. -/
theorem leaf_intersects_contains (y : List CellId) (hn : isNormalized y)
    (hvy : validList y) (c : CellId) (hleaf : c.level = 30) :
    intersectsIdU y c = true → containsIdU y c = true := by
  intro h1
  obtain ⟨hchain, hpw, _⟩ := hn
  have hsorted : y.Pairwise cellLE :=
    (List.chain'_iff_pairwise.mp hchain).imp (fun h => Nat.le_of_lt h)
  have hbel : y.Pairwise below :=
    List.chain'_iff_pairwise.mp (chain_below_of_norm y hchain hpw)
  have hsz : c.size = 1 := by
    unfold CellId.size
    rw [hleaf]
    norm_num
  have htid : c.toId = 2 * c.rmin + 1 := by
    unfold CellId.toId
    omega
  have hrmx : c.rmax = c.rmin := by
    unfold CellId.rmax
    omega
  set v := 2 * c.rmin + 1 with hv
  have hpred : predOf y v =
      y.foldl (fun acc r => if r.toId ≤ v then some r else acc) none := rfl
  have hprev : prevOf y v =
      y.foldl (fun acc r => if r.toId < v then some r else acc) none := rfl
  unfold intersectsIdU at h1
  rw [Bool.or_eq_true] at h1
  rcases h1 with hA | hB
  · -- the first element at or after v starts at or before v
    rcases hsc : succOf y v with _ | p
    · rw [hsc] at hA
      simp at hA
    · rw [hsc] at hA
      have hple : p.toId ≤ 2 * c.rmax + 1 := by simpa using hA
      have hmem := foldr_sel_some (fun r => v ≤ r.toId) y p hsc
      have hpv : p.toId = v := by omega
      obtain ⟨q, hq1, hq2, hq3, hq4⟩ :=
        foldl_sel_spec (fun r => r.toId ≤ v) y none hsorted p hmem.1
          (by omega)
      rw [← hpred] at hq1
      unfold containsIdU
      rw [htid, hq1]
      simp only [decide_eq_true_eq]
      have htq := q.toId_eq
      have hrq := q.rmin_le_rmax
      unfold cellLE at hq2
      omega
  · -- an earlier element reaches v
    rcases hpr : prevOf y v with _ | q0
    · rw [hpr] at hB
      simp at hB
    · rw [hpr] at hB
      have hq0le' : c.rmin ≤ q0.rmax := by simpa using hB
      have hq0le : v ≤ 2 * q0.rmax + 1 := by omega
      have hbase := foldl_sel_base (fun r => r.toId < v) y none
      rcases hbase with h | ⟨q0', hq0'1, hq0'2, hq0'3⟩
      · rw [← hprev, hpr] at h
        simp at h
      · rw [← hprev, hpr] at hq0'2
        have hq0eq : q0' = q0 := by simpa using hq0'2.symm
        subst hq0eq
        obtain ⟨q, hq1, hq2, hq3, hq4⟩ :=
          foldl_sel_spec (fun r => r.toId ≤ v) y none hsorted q0' hq0'1
            (by omega)
        rw [← hpred] at hq1
        unfold containsIdU
        rw [htid, hq1]
        simp only [decide_eq_true_eq]
        by_cases heq : q = q0'
        · subst heq
          omega
        · have htq := q.toId_eq
          have hrq := q.rmin_le_rmax
          unfold cellLE at hq2
          rcases pairwise_mem_or hbel hq0'1 hq4 (fun h => heq h.symm) with h | h
          · unfold below at h
            omega
          · have := CellId.toId_lt_of_below h
            omega

theorem validList_nil : validList [] := by
  intro x hx
  simp at hx

theorem isNormalized_nil : isNormalized ([] : List CellId) :=
  ⟨List.chain'_nil, List.Pairwise.nil, trivial⟩

theorem foldr_append_valid (f : CellId → List CellId) :
    ∀ (u : List CellId), (∀ c ∈ u, validList (f c)) →
    validList (u.foldr (fun c acc => f c ++ acc) []) := by
  intro u
  induction u with
  | nil => intro _; exact validList_nil
  | cons c t ih =>
    intro h x hx
    have hf : (c :: t).foldr (fun c acc => f c ++ acc) [] =
        f c ++ t.foldr (fun c acc => f c ++ acc) [] := rfl
    rw [hf] at hx
    rcases List.mem_append.mp hx with h1 | h1
    · exact h c (by simp) x h1
    · exact ih (fun d hd => h d (by simp [hd])) x h1

theorem interAux_valid : ∀ (fuel : Nat) (x y : List CellId),
    validList x → validList y → validList (interAux fuel x y)
  | 0, _, _, _, _ => validList_nil
  | _ + 1, [], _, _, _ => validList_nil
  | _ + 1, _ :: _, [], _, _ => validList_nil
  | fuel + 1, a :: x, b :: y, hvx, hvy => by
    have hun : interAux (fuel + 1) (a :: x) (b :: y) =
        if a.rmax < b.rmin then interAux fuel x (b :: y)
        else if b.rmax < a.rmin then interAux fuel (a :: x) y
        else if a.contains b then b :: interAux fuel (a :: x) y
        else if b.contains a then a :: interAux fuel x (b :: y)
        else [] := rfl
    rw [hun]
    have hvx' : validList x := fun d hd => hvx d (by simp [hd])
    have hvy' : validList y := fun d hd => hvy d (by simp [hd])
    split_ifs with h1 h2 h3 h4
    · exact interAux_valid fuel x (b :: y) hvx' hvy
    · exact interAux_valid fuel (a :: x) y hvx hvy'
    · intro z hz
      rcases List.mem_cons.mp hz with rfl | hz'
      · exact hvy z (by simp)
      · exact interAux_valid fuel (a :: x) y hvx hvy' z hz'
    · intro z hz
      rcases List.mem_cons.mp hz with rfl | hz'
      · exact hvx z (by simp)
      · exact interAux_valid fuel x (b :: y) hvx' hvy z hz'
    · exact validList_nil

theorem diffAux_valid (y : List CellId) (hn : isNormalized y)
    (hvy : validList y) : ∀ (fuel : Nat) (c : CellId), c.isValid →
    validList (diffAux y fuel c)
  | 0, _, _ => validList_nil
  | fuel + 1, c, hc => by
    have hun : diffAux y (fuel + 1) c =
        if intersectsIdU y c then
          if containsIdU y c then []
          else
            diffAux y fuel (c.child 0) ++ diffAux y fuel (c.child 1) ++
            diffAux y fuel (c.child 2) ++ diffAux y fuel (c.child 3)
        else [c] := rfl
    rw [hun]
    by_cases h1 : intersectsIdU y c = true
    · rw [if_pos h1]
      by_cases h2 : containsIdU y c = true
      · rw [if_pos h2]
        exact validList_nil
      · rw [if_neg h2]
        have hl29 : c.level ≤ 29 := by
          by_contra h
          push_neg at h
          have hleaf : c.level = 30 := by
            have := hc.1
            omega
          exact h2 (leaf_intersects_contains y hn hvy c hleaf h1)
        intro z hz
        simp only [List.mem_append] at hz
        rcases hz with ((hz | hz) | hz) | hz
        · exact diffAux_valid y hn hvy fuel (c.child 0)
            (CellId.child_isValid hc hl29 (by omega)) z hz
        · exact diffAux_valid y hn hvy fuel (c.child 1)
            (CellId.child_isValid hc hl29 (by omega)) z hz
        · exact diffAux_valid y hn hvy fuel (c.child 2)
            (CellId.child_isValid hc hl29 (by omega)) z hz
        · exact diffAux_valid y hn hvy fuel (c.child 3)
            (CellId.child_isValid hc hl29 (by omega)) z hz
    · rw [if_neg h1]
      intro z hz
      have : z = c := by simpa using hz
      rw [this]
      exact hc

theorem parentAt_isValid {c : CellId} (hc : c.isValid) {L : Nat}
    (hL : L ≤ c.level) : (parentAt c L).isValid := by
  obtain ⟨h30, hpos⟩ := hc
  constructor
  · show L ≤ 30
    omega
  · show c.pos / 4 ^ (c.level - L) < 6 * 4 ^ L
    rw [Nat.div_lt_iff_lt_mul (pow_pos (by norm_num) _)]
    have he : (4:Nat) ^ c.level = 4 ^ L * 4 ^ (c.level - L) := by
      rw [← pow_add]
      congr 1
      omega
    calc c.pos < 6 * 4 ^ c.level := hpos
    _ = 6 * 4 ^ L * 4 ^ (c.level - L) := by rw [he]; ring

theorem expandCell_valid (nbrs : CellId → Nat → List CellId)
    (hnb : ∀ d Lv, validList (nbrs d Lv)) (L : Nat) (hL : L ≤ 30)
    (c : CellId) (hc : c.isValid) : validList (expandCell nbrs L c) := by
  unfold expandCell
  by_cases h : L ≤ c.level
  · rw [if_pos h]
    intro z hz
    rcases List.mem_cons.mp hz with rfl | hz'
    · exact parentAt_isValid hc h
    · exact hnb (parentAt c L) L z hz'
  · rw [if_neg h]
    intro z hz
    rcases List.mem_cons.mp hz with rfl | hz'
    · exact hc
    · exact hnb c L z hz'

/-- Every cell emitted by the greedy range cover ends within the window,
is maximal, has a sane level, and the emitted blocks tile contiguously
starting at `lo`. -/
theorem rangeAux_spec (hi : Nat) : ∀ (fuel lo : Nat),
    (∀ g ∈ rangeAux hi fuel lo, g.rmax ≤ hi ∧ maximalFor hi g ∧ g.level ≤ 30) ∧
    (∀ r, (rangeAux hi fuel lo).head? = some r → r.rmin = lo) ∧
    (rangeAux hi fuel lo).Chain' (fun a b => a.rmax + 1 = b.rmin)
  | 0, lo => by
    refine ⟨?_, ?_, List.chain'_nil⟩
    · intro g hg
      simp [rangeAux] at hg
    · intro r hr
      simp [rangeAux] at hr
  | fuel + 1, lo => by
    rw [rangeAux_unfold]
    by_cases hlo : lo ≤ hi
    · rw [if_pos hlo]
      set g := growAux hi 30 ⟨30, lo⟩ with hg
      have hgmin : g.rmin = lo := by
        rw [hg, growAux_rmin, leaf_rmin]
      have hgmax : g.rmax ≤ hi := by
        rw [hg]
        exact growAux_rmax_le hi 30 _ (by rw [leaf_rmax]; exact hlo)
      have hgm : maximalFor hi g := by
        rw [hg]
        exact growAux_maximal hi 30 _ (by show (30:Nat) ≤ 30; omega)
      have hglev : g.level ≤ 30 := by
        rw [hg]
        exact growAux_level_le hi 30 _
      obtain ⟨ih1, ih2, ih3⟩ := rangeAux_spec hi fuel (g.rmax + 1)
      refine ⟨?_, ?_, ?_⟩
      · intro x hx
        rcases List.mem_cons.mp hx with rfl | hx'
        · exact ⟨hgmax, hgm, hglev⟩
        · exact ih1 x hx'
      · intro r hr
        have : g = r := by simpa using hr
        rw [← this]
        exact hgmin
      · rw [List.chain'_cons']
        refine ⟨?_, ih3⟩
        intro b hb
        rw [ih2 b hb]
    · rw [if_neg hlo]
      refine ⟨?_, ?_, List.chain'_nil⟩
      · intro x hx
        simp at hx
      · intro r hr
        simp at hr

/-- The greedy range cover is in normal form by construction. -/
theorem rangeAux_normalized (hi fuel lo : Nat) :
    isNormalized (rangeAux hi fuel lo) := by
  obtain ⟨hmem, _, hchain⟩ := rangeAux_spec hi fuel lo
  have hbelow : (rangeAux hi fuel lo).Chain' below :=
    hchain.imp (fun a b h => by
      show a.rmax < b.rmin
      omega)
  have hpw : (rangeAux hi fuel lo).Pairwise below :=
    List.chain'_iff_pairwise.mp hbelow
  refine ⟨hbelow.imp (fun a b h => below_idLT h), hpw.imp below_not_contains, ?_⟩
  rw [noFourSib_iff_quad]
  intro g1 g2 g3 g4 hin hs
  have hc4 := hchain.infix hin
  obtain ⟨h12, hc4'⟩ := List.chain'_cons.mp hc4
  obtain ⟨h23, hc4''⟩ := List.chain'_cons.mp hc4'
  obtain ⟨h34, _⟩ := List.chain'_cons.mp hc4''
  have hmem1 : g1 ∈ rangeAux hi fuel lo := hin.subset (by simp)
  have hmem4 : g4 ∈ rangeAux hi fuel lo := hin.subset (by simp)
  obtain ⟨hg1hi, hg1max, hg1lev⟩ := hmem g1 hmem1
  obtain ⟨hg4hi, _, hg4lev⟩ := hmem g4 hmem4
  have hstruct := CellId.sib4_sorted_struct hs (by omega) (by omega) (by omega)
    hg4lev
  have hs' := hs
  obtain ⟨l1, _, _, _, p1, _, _, _⟩ := hs'
  rcases hg1max with h0 | hnmax
  · omega
  · apply hnmax
    constructor
    · rw [p1, hstruct.1]
    · rw [p1, hstruct.2.1]
      exact hg4hi

/-- C1: every public operation that produces a cell union — Init,
Normalize, GetUnion, GetIntersection (both forms), GetDifference, Expand
(both forms), InitFromRange and InitFromBeginEnd — leaves the resulting
cell sequence in normal form: strictly sorted by id, no cell containing
another, and no four consecutive cells forming a complete sibling
group. -/
theorem claim_C1_normal_form (S x y u : List CellId) (c a b e : CellId)
    (nbrs : CellId → Nat → List CellId) (L Lt D : Nat) :
    (validList S → isNormalized (Init S)) ∧
    (validList S → isNormalized (NormalizeOp S).2) ∧
    (validList x → validList y → isNormalized (GetUnion x y)) ∧
    (validList x → validList y → isNormalized (GetIntersection x y)) ∧
    (validList x → c.isValid → isNormalized (GetIntersectionCell x c)) ∧
    (validList x → validList y → isNormalized y →
      isNormalized (GetDifference x y)) ∧
    (validList u → (∀ d Lv, validList (nbrs d Lv)) → L ≤ 30 →
      isNormalized (Expand nbrs L u)) ∧
    (validList u → (∀ d Lv, validList (nbrs d Lv)) →
      isNormalized (ExpandRadius nbrs Lt D u)) ∧
    isNormalized (InitFromRange a b) ∧
    isNormalized (InitFromBeginEnd a e) := by
  refine ⟨?_, ?_, ?_, ?_, ?_, ?_, ?_, ?_, ?_, ?_⟩
  · intro hv
    exact (normalizeList_spec S hv).1
  · intro hv
    exact (normalizeList_spec S hv).1
  · intro hx hy
    refine (normalizeList_spec _ ?_).1
    intro z hz
    rcases List.mem_append.mp hz with h | h
    · exact hx z h
    · exact hy z h
  · intro hx hy
    exact (normalizeList_spec _ (interAux_valid _ x y hx hy)).1
  · intro hx hc
    refine (normalizeList_spec _ (interAux_valid _ x [c] hx ?_)).1
    intro z hz
    have : z = c := by simpa using hz
    rw [this]
    exact hc
  · intro hx hy hny
    exact (normalizeList_spec _ (foldr_append_valid _ x
      (fun d hd => diffAux_valid y hny hy 31 d (hx d hd)))).1
  · intro hu hnb hL
    exact (normalizeList_spec _ (foldr_append_valid _ u
      (fun d hd => expandCell_valid nbrs hnb L hL d (hu d hd)))).1
  · intro hu hnb
    have hL : expandLevelFor Lt D u ≤ 30 := by
      unfold expandLevelFor
      omega
    exact (normalizeList_spec _ (foldr_append_valid _ u
      (fun d hd => expandCell_valid nbrs hnb _ hL d (hu d hd)))).1
  · exact rangeAux_normalized _ _ _
  · unfold InitFromBeginEnd
    by_cases h : a = e
    · rw [if_pos h]
      exact isNormalized_nil
    · rw [if_neg h]
      exact rangeAux_normalized _ _ _

/-- Witness for C1 at concrete inputs covering all ten operations. -/
theorem claim_C1_normal_form_witness :
    isNormalized (Init [⟨1, 1⟩, ⟨1, 0⟩, ⟨2, 9⟩]) ∧
    isNormalized (NormalizeOp [⟨1, 1⟩, ⟨1, 0⟩, ⟨2, 9⟩]).2 ∧
    isNormalized (GetUnion [⟨1, 0⟩] [⟨1, 1⟩]) ∧
    isNormalized (GetIntersection [⟨1, 0⟩] [⟨1, 1⟩]) ∧
    isNormalized (GetIntersectionCell [⟨1, 0⟩] ⟨2, 1⟩) ∧
    isNormalized (GetDifference [⟨1, 0⟩] [⟨1, 1⟩]) ∧
    isNormalized (Expand (fun _ _ => []) 3 [⟨2, 3⟩]) ∧
    isNormalized (ExpandRadius (fun _ _ => []) 10 2 [⟨2, 3⟩]) ∧
    isNormalized (InitFromRange ⟨30, 5⟩ ⟨30, 21⟩) ∧
    isNormalized (InitFromBeginEnd ⟨30, 5⟩ ⟨30, 9⟩) := by
  have h := claim_C1_normal_form [⟨1, 1⟩, ⟨1, 0⟩, ⟨2, 9⟩] [⟨1, 0⟩] [⟨1, 1⟩]
    [⟨2, 3⟩] ⟨2, 1⟩ ⟨30, 5⟩ ⟨30, 21⟩ ⟨30, 9⟩ (fun _ _ => []) 3 10 2
  refine ⟨h.1 (by decide), h.2.1 (by decide), h.2.2.1 (by decide) (by decide),
    h.2.2.2.1 (by decide) (by decide), h.2.2.2.2.1 (by decide) (by decide),
    h.2.2.2.2.2.1 (by decide) (by decide) (by decide),
    h.2.2.2.2.2.2.1 (by decide) ?_ (by decide),
    h.2.2.2.2.2.2.2.1 (by decide) ?_,
    h.2.2.2.2.2.2.2.2.1, h.2.2.2.2.2.2.2.2.2⟩
  · intro d Lv z hz
    simp at hz
  · intro d Lv z hz
    simp at hz

end S2
